import Mathlib

/-!
# mathdis: Atari math box microcode disassembler

A shallow embedding of `mathdis.c` (`read_inst`, `dis_fcn`, `disassemble_inst`)
and the properties of its word assembly, instruction decoding and rendering.

Conventions of the embedding

* C `int` / `unsigned long` values that the program only ever holds
  non-negative are natural numbers; `>>`, `&`, `|`, `^` are the operations of
  `Nat` with the same names.
* A C truth value is tested as `x ≠ 0`.
* `fprintf (file, ...)` appends text to the file; the file is the text written
  so far.
* A read of an array outside its bounds or of a variable that was never
  assigned has no defined result: it is `none`.
* A file is the list of its bytes; a run that ends in `fatal` has no result.
-/

namespace Mathdis

/-! ## printf conversions -/

/-- The conversion `%x` of printf: lowercase hexadecimal, no padding. -/
def hex (n : Nat) : String := String.mk (Nat.toDigits 16 n)

/-- The conversion `%03x` of printf: lowercase hexadecimal, padded on the left
with zeros to at least three digits. -/
def hex03 (n : Nat) : String :=
  String.mk (List.replicate (3 - (Nat.toDigits 16 n).length) '0' ++ Nat.toDigits 16 n)

/-! ## dis_fcn -/

/-- The table `static char *pc [2] = { "", " + 1" }`, read at index `c`. -/
def pc (c : Nat) : Option String := ["", " + 1"][c]?

/-- The table `static char *mc [2] = { " - 1", "" }`, read at index `c`. -/
def mc (c : Nat) : Option String := [" - 1", ""][c]?

/-- The text `dis_fcn (file, f, s, a, b, c)` appends to the file.  The case
labels of the source are octal (`000` .. `077`); they are decimal here.  A
value of `(f << 3) | s` outside the labels matches no case and prints nothing. -/
def dis_fcn (f s a b c : Nat) : Option String :=
  match (f <<< 3) ||| s with
  | 0  => (pc c).map fun p => "R" ++ hex a ++ " + q" ++ p
  | 1  => (pc c).map fun p => "R" ++ hex a ++ " + R" ++ hex b ++ p
  | 2  => (pc c).map fun p => "q" ++ p
  | 3  => (pc c).map fun p => "R" ++ hex b ++ p
  | 4  => (pc c).map fun p => "R" ++ hex a ++ p
  | 5  => (pc c).map fun p => "d + R" ++ hex a ++ p
  | 6  => (pc c).map fun p => "d + q" ++ p
  | 7  => (pc c).map fun p => "d" ++ p
  | 8  => (mc c).map fun p => "q - R" ++ hex a ++ p
  | 9  => (mc c).map fun p => "R" ++ hex b ++ " - R" ++ hex a ++ p
  | 10 => (mc c).map fun p => "q" ++ p
  | 11 => (mc c).map fun p => "R" ++ hex b ++ p
  | 12 => (mc c).map fun p => "R" ++ hex a ++ p
  | 13 => (mc c).map fun p => "R" ++ hex a ++ " - d" ++ p
  | 14 => (mc c).map fun p => "q - d" ++ p
  | 15 => (mc c).map fun p => "-d" ++ p
  | 16 => (mc c).map fun p => "R" ++ hex a ++ " - q" ++ p
  | 17 => (mc c).map fun p => "R" ++ hex a ++ " - R" ++ hex b ++ p
  | 18 => (mc c).map fun p => "-q" ++ p
  | 19 => (mc c).map fun p => "-R" ++ hex b ++ p
  | 20 => (mc c).map fun p => "-R" ++ hex a ++ p
  | 21 => (mc c).map fun p => "d - R" ++ hex a ++ p
  | 22 => (mc c).map fun p => "d - q" ++ p
  | 23 => (mc c).map fun p => "d" ++ p
  | 24 => some ("R" ++ hex a ++ " | q")
  | 25 => some ("R" ++ hex a ++ " | R" ++ hex b)
  | 26 => some "q"
  | 27 => some ("R" ++ hex b)
  | 28 => some ("R" ++ hex a)
  | 29 => some ("d | R" ++ hex a)
  | 30 => some "d | q"
  | 31 => some "d"
  | 32 => some ("R" ++ hex a ++ " & q")
  | 33 => some ("R" ++ hex a ++ " & R" ++ hex b)
  | 34 => some "0"
  | 35 => some "0"
  | 36 => some "0"
  | 37 => some ("d & R" ++ hex a)
  | 38 => some "d & q"
  | 39 => some "0"
  | 40 => some ("!R" ++ hex a ++ " & q")
  | 41 => some ("!R" ++ hex a ++ " & R" ++ hex b)
  | 42 => some "q"
  | 43 => some ("R" ++ hex b)
  | 44 => some ("R" ++ hex a)
  | 45 => some ("!d & R" ++ hex a)
  | 46 => some "!d & q"
  | 47 => some "0"
  | 48 => some ("R" ++ hex a ++ " ^ q")
  | 49 => some ("R" ++ hex a ++ " ^ R" ++ hex b)
  | 50 => some "q"
  | 51 => some ("R" ++ hex b)
  | 52 => some ("R" ++ hex a)
  | 53 => some ("d ^ R" ++ hex a)
  | 54 => some "d ^ q"
  | 55 => some "d"
  | 56 => some ("!R" ++ hex a ++ " ^ q")
  | 57 => some ("!R" ++ hex a ++ " ^ R" ++ hex b)
  | 58 => some "!q"
  | 59 => some ("!R" ++ hex b)
  | 60 => some ("!R" ++ hex a)
  | 61 => some ("!d & R" ++ hex a)
  | 62 => some "!d & q"
  | 63 => some "!d"
  | _  => some ""

/-! ## disassemble_inst -/

/-- The local variables `a b f sh sl d h l s j m c` of `disassemble_inst`. -/
structure DecodedFields where
  a : Nat
  b : Nat
  f : Nat
  sh : Nat
  sl : Nat
  d : Nat
  h : Nat
  l : Nat
  s : Nat
  j : Nat
  m : Nat
  c : Nat
deriving DecidableEq

/-- The field extraction at the head of `disassemble_inst` (the assignments to
`a` .. `c`, with `if (sh > 7) sh -= 4;`). -/
def decode (inst : Nat) : DecodedFields :=
  let sh := (inst >>> 12) &&& 0x0b
  { a := (inst >>> 20) &&& 0x0f
    b := (inst >>> 16) &&& 0x0f
    f := (inst >>> 8) &&& 0x07
    sh := if sh > 7 then sh - 4 else sh
    sl := (inst >>> 12) &&& 0x07
    d := (inst >>> 4) &&& 0x07
    h := inst &&& 0x000800
    l := inst &&& 0x000080
    s := inst &&& 0x000008
    j := inst &&& 0x000004
    m := inst &&& 0x000002
    c := inst &&& 0x000001 }

/-- The value stored through `eos`: `h || (j && !s)`. -/
def eos (inst : Nat) : Bool :=
  let F := decode inst
  decide (F.h ≠ 0) || (decide (F.j ≠ 0) && !decide (F.s ≠ 0))

/-- The local variable `show_y`: `h || (j && s)`. -/
def show_y (inst : Nat) : Bool :=
  let F := decode inst
  decide (F.h ≠ 0) || (decide (F.j ≠ 0) && decide (F.s ≠ 0))

/-- The local variable `jmp_addr`: assigned `inst >> 16` only under `if (l)`,
and without a value otherwise. -/
def jmp_addr (inst : Nat) : Option Nat :=
  if (decode inst).l ≠ 0 then some (inst >>> 16) else none

/-- One write to the file: the text of one `fprintf`, or one call of `dis_fcn`
with its arguments. -/
inductive Write where
  | str (text : String)
  | fcn (f s a b c : Nat)
deriving DecidableEq

/-- The text one write appends to the file. -/
def Write.text : Write → Option String
  | .str t => some t
  | .fcn f s a b c => dis_fcn f s a b c

/-- Whether a write is a call of `dis_fcn`. -/
def Write.isFcn : Write → Bool
  | .str _ => false
  | .fcn _ _ _ _ _ => true

/-- The text a sequence of writes leaves in the file. -/
def written : List Write → Option String
  | [] => some ""
  | w :: ws => (w.text).bind fun t => (written ws).map fun r => t ++ r

/-- The number of calls of `dis_fcn` among a sequence of writes. -/
def fcn_calls (ws : List Write) : Nat := ws.countP Write.isFcn

/-- The three writes of the flag letters `H`, `S`, `L`. -/
def flag_writes (inst : Nat) : List Write :=
  let F := decode inst
  [ .str (if F.h ≠ 0 then "H" else " "),
    .str (if F.s ≠ 0 then "S" else " "),
    .str (if F.l ≠ 0 then "L" else " ") ]

/-- The write of the jump column (`if (j) ... else ...`); it has no defined
result when `jmp_addr` is printed without having been assigned. -/
def jump_writes (inst : Nat) : Option (List Write) :=
  let F := decode inst
  if F.j ≠ 0 then
    (jmp_addr inst).map fun ja =>
      if F.s ≠ 0 then [.str (" (->" ++ hex03 ja ++ ") ")]
      else [.str ("  ->" ++ hex03 ja ++ "  ")]
  else some [.str "         "]

/-- The test `(inst & 0xfffb) == 0x0090` that selects the address-load marker. -/
def is_load_addr (inst : Nat) : Bool := inst &&& 0xfffb = 0x0090

/-- The destination prefix under `if (show_y) switch (d)`. -/
def dest_y (d a b : Nat) : String :=
  match d with
  | 0 => "y = q = ("
  | 1 => "y = ("
  | 2 => "y = R" ++ hex a ++ ", R" ++ hex b ++ " = ("
  | 3 => "y = R" ++ hex b ++ " = ("
  | 4 => "q = 1/2 * q, R" ++ hex b ++ " = 1/2 * (y = "
  | 5 => "R" ++ hex b ++ " = 1/2 * (y = "
  | 6 => "q = 2 * q, R" ++ hex b ++ " = 2 * (y = "
  | 7 => "R" ++ hex b ++ " = 2 * (y = "
  | _ => ""

/-- The destination prefix under `else switch (d)`. -/
def dest_no_y (d b : Nat) : String :=
  match d with
  | 0 => "q = ("
  | 1 => "y = ("
  | 2 => "R" ++ hex b ++ " = ("
  | 3 => "R" ++ hex b ++ " = ("
  | 4 => "q = 1/2 * q, R" ++ hex b ++ " = 1/2 * ("
  | 5 => "R" ++ hex b ++ " = 1/2 * ("
  | 6 => "q = 2 * q, R" ++ hex b ++ " = 2 * ("
  | 7 => "R" ++ hex b ++ " = 2 * ("
  | _ => ""

/-- The destination prefix written for a word. -/
def destination (inst : Nat) : String :=
  let F := decode inst
  if show_y inst then dest_y F.d F.a F.b else dest_no_y F.d F.b

/-- The writes of the last column: the address-load marker, or the destination
prefix, the calls of `dis_fcn` with their separators, and `") "`. -/
def column_writes (inst : Nat) : List Write :=
  let F := decode inst
  if is_load_addr inst then [.str "--load addr--"]
  else
    [.str (destination inst), .fcn F.f F.sh F.a F.b F.c]
    ++ (if F.sh ≠ F.sl then [.str ", ", .fcn F.f F.sl F.a F.b F.c] else [])
    ++ (if F.m ≠ 0 then
          [.str " ? ", .fcn F.f (F.sh ^^^ 2) F.a F.b F.c]
          ++ (if F.sh ≠ F.sl then [.str ", ", .fcn F.f (F.sl ^^^ 2) F.a F.b F.c] else [])
        else [])
    ++ [.str ") "]

/-- All writes of `disassemble_inst (file, inst, &eos)`, in order. -/
def inst_writes (inst : Nat) : Option (List Write) :=
  (jump_writes inst).map fun jw => flag_writes inst ++ jw ++ column_writes inst

/-- The result of `disassemble_inst (file, inst, &eos)`: the text appended to
the file (`none` when it is not defined) and the value stored through `eos`. -/
def disassemble_inst (inst : Nat) : Option String × Bool :=
  ((inst_writes inst).bind written, eos inst)

/-- The text of the jump column. -/
def jump_column (inst : Nat) : Option String := (jump_writes inst).bind written

/-- The text of the last column. -/
def inst_column (inst : Nat) : Option String := written (column_writes inst)

/-! ## The table of the ALU Expression Renderer, as the specification prints it -/

/-- The 64 entries of the function/select table, row `f`, column `s`, in the
compact notation of the specification: `Ra`, `Rb` stand for the two registers. -/
def spec_table : List (List String) :=
  [ ["Ra+q",  "Ra+Rb",  "q",  "Rb",  "Ra",  "d+Ra",  "d+q",  "d"],
    ["q-Ra",  "Rb-Ra",  "q",  "Rb",  "Ra",  "Ra-d",  "q-d",  "-d"],
    ["Ra-q",  "Ra-Rb",  "-q", "-Rb", "-Ra", "d-Ra",  "d-q",  "d"],
    ["Ra|q",  "Ra|Rb",  "q",  "Rb",  "Ra",  "d|Ra",  "d|q",  "d"],
    ["Ra&q",  "Ra&Rb",  "0",  "0",   "0",   "d&Ra",  "d&q",  "0"],
    ["!Ra&q", "!Ra&Rb", "q",  "Rb",  "Ra",  "!d&Ra", "!d&q", "0"],
    ["Ra^q",  "Ra^Rb",  "q",  "Rb",  "Ra",  "d^Ra",  "d^q",  "d"],
    ["!Ra^q", "!Ra^Rb", "!q", "!Rb", "!Ra", "!d&Ra", "!d&q", "!d"] ]

/-- The suffix helper `pc` of the specification. -/
def spec_pc (c : Nat) : String := if c = 0 then "" else "+1"

/-- The suffix helper `mc` of the specification. -/
def spec_mc (c : Nat) : String := if c = 0 then "-1" else ""

/-- The suffix of row `f`: `pc` for the add family, `mc` for the two subtract
families, none for the logic families. -/
def spec_suffix (f c : Nat) : String :=
  if f = 0 then spec_pc c else if f = 1 ∨ f = 2 then spec_mc c else ""

/-- The lowercase hexadecimal digit of `n`. -/
def hexDigit (n : Nat) : Char := "0123456789abcdef".toList.getD n '?'

/-- How a compact entry is written out: `Ra` / `Rb` become `R` and the
hexadecimal digit of the register index, an operator that stands between two
operands is set off by one blank on each side, a leading `-` and `!` stay
attached to their operand. -/
def typeset (a b : Nat) : Bool → List Char → List Char
  | _, [] => []
  | _, 'R' :: 'a' :: cs => 'R' :: hexDigit a :: typeset a b false cs
  | _, 'R' :: 'b' :: cs => 'R' :: hexDigit b :: typeset a b false cs
  | first, ch :: cs =>
    if !first && ch ∈ ['+', '-', '|', '&', '^'] then
      ' ' :: ch :: ' ' :: typeset a b false cs
    else ch :: typeset a b false cs

/-- Entry `(f, s)` of the specification's table for registers `a`, `b` and
carry bit `c`: the suffix is appended to the compact entry and written out
with it (`Ra+q` with `+1` is `R3 + q + 1` for `a = 3`). -/
def spec_entry (f s a b c : Nat) : String :=
  String.mk (typeset a b true
    (((spec_table.getD f []).getD s "") ++ spec_suffix f c).toList)

/-- The address-load test as the specification words it: the lower 16 bits of
the word, with bits 2 and 6 masked out, equal the sentinel `0x0090`. -/
def spec_is_load_addr (w : Nat) : Bool := (w % 2 ^ 16) &&& 0xffbb = 0x0090

/-- The write that stands for the address-load marker. -/
def load_addr_marker : List Write := [.str "--load addr--"]

/-- The three lowercase hexadecimal digits of `n`, most significant first. -/
def hex3 (n : Nat) : String :=
  String.mk [hexDigit (n / 256 % 16), hexDigit (n / 16 % 16), hexDigit (n % 16)]

/-- The last column as the specification composes it, up to the text
`closing` that ends it: destination prefix, the rendering for `sh`, the
alternate for `sl` after a comma when `sh != sl`, and, when M is set, a ` ? `
followed by the renderings for `sh XOR 2` and (when `sh != sl`) `sl XOR 2`;
`render` is `dis_fcn`. -/
def spec_column (closing : String) (w : Nat) : String :=
  let F := decode w
  let render := fun s => (dis_fcn F.f s F.a F.b F.c).getD ""
  destination w ++ render F.sh
    ++ (if F.sh ≠ F.sl then ", " ++ render F.sl else "")
    ++ (if w.testBit 1 = true then
          " ? " ++ render (F.sh ^^^ 2)
            ++ (if F.sh ≠ F.sl then ", " ++ render (F.sl ^^^ 2) else "")
        else "")
    ++ closing

/-- The number of renderer invocations the specification counts: one when
`sh = sl` and M is clear, four when `sh != sl` and M is set, two otherwise. -/
def spec_calls (w : Nat) : Nat :=
  if (decode w).sh = (decode w).sl ∧ w.testBit 1 = false then 1
  else if (decode w).sh ≠ (decode w).sl ∧ w.testBit 1 = true then 4
  else 2

/-- The word rebuilt from decoded fields: `a`, `b`, `sl`, `f`, `d` at their
bit positions, bit 15 from bit 2 of `sh`, and the flag values `h l s j m c`,
which are the masked bits themselves. -/
def encode (F : DecodedFields) : Nat :=
  F.a * 2 ^ 20 + F.b * 2 ^ 16 + (F.sh / 4) * 2 ^ 15 + F.sl * 2 ^ 12 + F.h + F.f * 2 ^ 8
    + F.l + F.d * 2 ^ 4 + F.s + F.j + F.m + F.c

/-- Whether the text `pat` occurs in the text `s`. -/
def occurs (pat s : String) : Bool := s.data.tails.any fun t => pat.data.isPrefixOf t

/-- The three flag characters: `H`, `S`, `L`, each a letter when bit 11, 3, 7
of the word is set and a blank otherwise. -/
def spec_flags (w : Nat) : String :=
  String.mk [if w.testBit 11 = true then 'H' else ' ', if w.testBit 3 = true then 'S' else ' ',
    if w.testBit 7 = true then 'L' else ' ']

/-! ## read_inst -/

/-- The constant `I_MAX`. -/
def I_MAX : Nat := 256

/-- The global arrays `instruction` and `entry`, both of `I_MAX` elements. -/
structure Globals where
  instruction : List Nat
  entry : List Int
deriving DecidableEq

/-- The loop `for (i = 0; i < 32; i++) { fread (&d ...); entry[d] = i; }` over
the bytes read, `i` being the index of the first of them. -/
def dispatch_loop : List Nat → Nat → List Int → List Int
  | [], _, entry => entry
  | d :: ds, i, entry => dispatch_loop ds (i + 1) (entry.set d (i : Int))

/-- The loop `for (j = 0; j < 256; j++) { fread (&d ...); instruction[j] |= d << (i * 4); }`
of microcode ROM `i` over the bytes read, `j` being the index of the first of
them.  A byte is below 256 and `i` at most 5, so `d << (i * 4)` is below
`2 ^ 28` and nothing is lost in the 32-bit `instruction[j]`. -/
def ucode_loop (i : Nat) : List Nat → Nat → List Nat → List Nat
  | [], _, instruction => instruction
  | d :: ds, j, instruction =>
    ucode_loop i ds (j + 1) (instruction.set j (instruction.getD j 0 ||| (d <<< (i * 4))))

/-- The loop over the microcode ROM files, `i` being the index of the first of
them; a file with fewer than 256 bytes ends the program (`fatal (3, ...)`). -/
def rom_loop : List (List Nat) → Nat → List Nat → Option (List Nat)
  | [], _, instruction => some instruction
  | rom :: roms, i, instruction =>
    if rom.length < 256 then none
    else rom_loop roms (i + 1) (ucode_loop i (rom.take 256) 0 instruction)

/-- The entry table `read_inst` builds from the bytes of the dispatch ROM file:
all of `entry` is set to -1, then the first 32 bytes are read; a file with
fewer than 32 bytes ends the program (`fatal (3, ...)`). -/
def read_entry (dispatch_rom : List Nat) : Option (List Int) :=
  if dispatch_rom.length < 32 then none
  else some (dispatch_loop (dispatch_rom.take 32) 0 (List.replicate I_MAX (-1)))

/-- The globals after `read_inst ()`, from the bytes of the dispatch ROM file
and of the six microcode ROM files (all opened); `none` when the program
ends on a short read. -/
def read_inst (dispatch_rom : List Nat) (ucode_rom : List (List Nat)) : Option Globals :=
  (read_entry dispatch_rom).bind fun entry =>
    (rom_loop ucode_rom 0 (List.replicate I_MAX 0)).map fun instruction =>
      { instruction := instruction, entry := entry }

/-- The word of the specification: the bitwise OR, over `i` in 0..5, of source
byte `i` shifted left by `4 * i`, starting from 0. -/
def spec_word (bytes : List Nat) : Nat :=
  (List.range 6).foldl (fun acc i => acc ||| (bytes.getD i 0 <<< (4 * i))) 0

/-! ## dis_fcn against the table -/

theorem hex_eq_hexDigit (n : Nat) (h : n < 16) : hex n = String.singleton (hexDigit n) := by
  interval_cases n <;> rfl

theorem dis_fcn_table (f s a b c : Nat) (hf : f < 8) (hs : s < 8)
    (ha : a < 16) (hb : b < 16) (hc : c < 2) :
    dis_fcn f s a b c = some (spec_entry f s a b c) ∧ spec_entry f s a b c ≠ "" := by
  have hA := hex_eq_hexDigit a ha
  have hB := hex_eq_hexDigit b hb
  interval_cases f <;> interval_cases s <;> interval_cases c <;>
    simp [dis_fcn, pc, mc, spec_entry, spec_table, spec_suffix, spec_pc, spec_mc, typeset,
      hA, hB, String.ext_iff]

/-! ## Bit masks -/

theorem and_mod_two_pow_of_lt (x m n : Nat) (hm : m < 2 ^ n) : x &&& m = (x % 2 ^ n) &&& m := by
  apply Nat.eq_of_testBit_eq
  intro i
  simp only [Nat.testBit_and, Nat.testBit_mod_two_pow]
  by_cases h : i < n
  · simp [h]
  · have hbit : m.testBit i = false :=
      Nat.testBit_lt_two_pow (lt_of_lt_of_le hm (Nat.pow_le_pow_right (by decide) (by omega)))
    simp [hbit]

theorem and_two_pow_ne_zero (x k : Nat) : (x &&& 2 ^ k ≠ 0) ↔ x.testBit k = true := by
  constructor
  · intro h
    by_contra hb
    apply h
    apply Nat.eq_of_testBit_eq
    intro i
    simp only [Nat.testBit_and, Nat.testBit_two_pow, Nat.zero_testBit]
    by_cases hik : k = i
    · subst hik; simp [hb]
    · simp [hik]
  · intro hb h
    have hk := congrArg (fun y => y.testBit k) h
    simp [hb, Nat.testBit_two_pow] at hk

theorem shift_mask (x k n : Nat) : (x >>> k) &&& (2 ^ n - 1) = x / 2 ^ k % 2 ^ n := by
  rw [Nat.shiftRight_eq_div_pow]
  exact Nat.and_pow_two_sub_one_eq_mod _ n

/-! ## The decoded fields -/

theorem decode_a (w : Nat) : (decode w).a = w / 2 ^ 20 % 16 := shift_mask w 20 4
theorem decode_b (w : Nat) : (decode w).b = w / 2 ^ 16 % 16 := shift_mask w 16 4
theorem decode_f (w : Nat) : (decode w).f = w / 2 ^ 8 % 8 := shift_mask w 8 3
theorem decode_sl (w : Nat) : (decode w).sl = w / 2 ^ 12 % 8 := shift_mask w 12 3
theorem decode_d (w : Nat) : (decode w).d = w / 2 ^ 4 % 8 := shift_mask w 4 3

theorem decode_h (w : Nat) : (decode w).h ≠ 0 ↔ w.testBit 11 = true := and_two_pow_ne_zero w 11
theorem decode_l (w : Nat) : (decode w).l ≠ 0 ↔ w.testBit 7 = true := and_two_pow_ne_zero w 7
theorem decode_s (w : Nat) : (decode w).s ≠ 0 ↔ w.testBit 3 = true := and_two_pow_ne_zero w 3
theorem decode_j (w : Nat) : (decode w).j ≠ 0 ↔ w.testBit 2 = true := and_two_pow_ne_zero w 2
theorem decode_m (w : Nat) : (decode w).m ≠ 0 ↔ w.testBit 1 = true := and_two_pow_ne_zero w 1
theorem decode_c (w : Nat) : (decode w).c ≠ 0 ↔ w.testBit 0 = true := and_two_pow_ne_zero w 0

theorem decode_c_eq (w : Nat) : (decode w).c = w % 2 := Nat.and_one_is_mod w

theorem decode_sh (w : Nat) :
    (decode w).sh =
      if (w / 2 ^ 12 % 16) &&& 0b1011 > 7 then ((w / 2 ^ 12 % 16) &&& 0b1011) - 4
      else (w / 2 ^ 12 % 16) &&& 0b1011 := by
  have h : (w >>> 12) &&& 0x0b = (w / 2 ^ 12 % 16) &&& 0b1011 := by
    rw [Nat.shiftRight_eq_div_pow]
    exact and_mod_two_pow_of_lt _ 11 4 (by decide)
  simp only [decode, h]

theorem decode_sh_lt (w : Nat) : (decode w).sh < 8 := by
  rw [decode_sh]
  have hlt : w / 2 ^ 12 % 16 < 16 := Nat.mod_lt _ (by decide)
  generalize w / 2 ^ 12 % 16 = x at hlt
  interval_cases x <;> decide

theorem decode_a_lt (w : Nat) : (decode w).a < 16 := by
  rw [decode_a]; exact Nat.mod_lt _ (by decide)

theorem decode_b_lt (w : Nat) : (decode w).b < 16 := by
  rw [decode_b]; exact Nat.mod_lt _ (by decide)

theorem decode_f_lt (w : Nat) : (decode w).f < 8 := by
  rw [decode_f]; exact Nat.mod_lt _ (by decide)

theorem decode_sl_lt (w : Nat) : (decode w).sl < 8 := by
  rw [decode_sl]; exact Nat.mod_lt _ (by decide)

theorem decode_d_lt (w : Nat) : (decode w).d < 8 := by
  rw [decode_d]; exact Nat.mod_lt _ (by decide)

theorem decode_c_lt (w : Nat) : (decode w).c < 2 := by
  rw [decode_c_eq]; exact Nat.mod_lt _ (by decide)

theorem eos_eq_bits (w : Nat) :
    eos w = (w.testBit 11 || (w.testBit 2 && !w.testBit 3)) := by
  have hh := decode_h w
  have hj := decode_j w
  have hs := decode_s w
  unfold eos
  cases h11 : w.testBit 11 <;> cases h2 : w.testBit 2 <;> cases h3 : w.testBit 3 <;>
    simp_all

theorem show_y_eq_bits (w : Nat) :
    show_y w = (w.testBit 11 || (w.testBit 2 && w.testBit 3)) := by
  have hh := decode_h w
  have hj := decode_j w
  have hs := decode_s w
  unfold show_y
  cases h11 : w.testBit 11 <;> cases h2 : w.testBit 2 <;> cases h3 : w.testBit 3 <;>
    simp_all

/-! ## The address-load test -/

theorem mask_fffb (w : Nat) :
    (w &&& 0xfffb = 0x0090) ↔ (w % 2 ^ 16 = 0x0090 ∨ w % 2 ^ 16 = 0x0094) := by
  rw [and_mod_two_pow_of_lt w 0xfffb 16 (by decide)]
  have hlt : w % 2 ^ 16 < 2 ^ 16 := Nat.mod_lt _ (by decide)
  generalize w % 2 ^ 16 = y at hlt
  constructor
  · intro h
    have hb : ∀ i, (y.testBit i && (0xfffb : Nat).testBit i) = (0x90 : Nat).testBit i := by
      intro i; rw [← Nat.testBit_and, h]
    have h0 := hb 0; have h1 := hb 1; have h3 := hb 3; have h4 := hb 4; have h5 := hb 5
    have h6 := hb 6; have h7 := hb 7; have h8 := hb 8; have h9 := hb 9; have h10 := hb 10
    have h11 := hb 11; have h12 := hb 12; have h13 := hb 13; have h14 := hb 14
    have h15 := hb 15
    simp [Nat.testBit_to_div_mod] at h0 h1 h3 h4 h5 h6 h7 h8 h9 h10 h11 h12 h13 h14 h15
    omega
  · rintro (h | h) <;> subst h <;> decide

theorem column_writes_ne_marker (w : Nat) (h : is_load_addr w = false) :
    column_writes w ≠ load_addr_marker := by
  intro hc
  have hlen := congrArg List.length hc
  simp [column_writes, h, load_addr_marker] at hlen

theorem column_writes_marker_iff (w : Nat) :
    column_writes w = load_addr_marker ↔ is_load_addr w = true := by
  constructor
  · intro hc
    by_contra hn
    exact column_writes_ne_marker w (by simpa using hn) hc
  · intro h
    simp [column_writes, h, load_addr_marker]

theorem xor_four_and_fffb (w : Nat) : (w ^^^ 4) &&& 0xfffb = w &&& 0xfffb := by
  apply Nat.eq_of_testBit_eq
  intro i
  simp only [Nat.testBit_and, Nat.testBit_xor]
  by_cases hi : i = 2
  · subst hi
    have h2 : (0xfffb : Nat).testBit 2 = false := by decide
    simp [h2]
  · have h4 : (4 : Nat).testBit i = false :=
      Nat.testBit_two_pow_of_ne (n := 2) (m := i) (fun h => hi h.symm)
    simp [h4]

/-! ## The jump column -/

set_option maxRecDepth 100000 in
theorem hex03_digits : ∀ x < 16, ∀ y < 16, ∀ z < 16,
    hex03 (256 * x + 16 * y + z) = String.mk [hexDigit x, hexDigit y, hexDigit z] := by
  decide

theorem hex03_eq_hex3 (n : Nat) (h : n < 4096) : hex03 n = hex3 n := by
  have hx : n / 256 % 16 < 16 := Nat.mod_lt _ (by decide)
  have hy : n / 16 % 16 < 16 := Nat.mod_lt _ (by decide)
  have hz : n % 16 < 16 := Nat.mod_lt _ (by decide)
  have hn : n = 256 * (n / 256 % 16) + 16 * (n / 16 % 16) + n % 16 := by omega
  have key := hex03_digits _ hx _ hy _ hz
  rw [← hn] at key
  exact key

theorem jump_column_of_j (w : Nat) (hl : w.testBit 7 = true) (hj : w.testBit 2 = true) :
    jump_column w =
      some (if w.testBit 3 = true then " (->" ++ hex03 (w / 2 ^ 16) ++ ") "
            else "  ->" ++ hex03 (w / 2 ^ 16) ++ "  ") := by
  have hL : (decode w).l ≠ 0 := (decode_l w).mpr hl
  have hJ : (decode w).j ≠ 0 := (decode_j w).mpr hj
  have hS := decode_s w
  cases h3 : w.testBit 3
  · have hS0 : (decode w).s = 0 := by
      by_contra hne
      rw [hS.mp hne] at h3
      exact Bool.noConfusion h3
    simp [jump_column, jump_writes, jmp_addr, hL, hJ, hS0, written, Write.text,
      Nat.shiftRight_eq_div_pow]
  · have hS1 : (decode w).s ≠ 0 := hS.mpr h3
    simp [jump_column, jump_writes, jmp_addr, hL, hJ, hS1, written, Write.text,
      Nat.shiftRight_eq_div_pow]

theorem jump_column_of_not_j (w : Nat) (hj : w.testBit 2 = false) :
    jump_column w = some "         " := by
  have hJ : (decode w).j = 0 := by
    by_contra hne
    rw [(decode_j w).mp hne] at hj
    exact Bool.noConfusion hj
  simp [jump_column, jump_writes, hJ, written, Write.text]

/-! ## The expression column -/

theorem dis_fcn_defined (f s a b c : Nat) (hc : c < 2) : ∃ r, dis_fcn f s a b c = some r := by
  interval_cases c <;> unfold dis_fcn <;> split <;> simp [pc, mc]

theorem inst_column_eq (w : Nat) (h : is_load_addr w = false) :
    inst_column w = some (spec_column ") " w) ∧
      fcn_calls (column_writes w) = spec_calls w := by
  have hc := decode_c_lt w
  have hm := decode_m w
  obtain ⟨r1, h1⟩ := dis_fcn_defined (decode w).f (decode w).sh (decode w).a (decode w).b
    (decode w).c hc
  obtain ⟨r2, h2⟩ := dis_fcn_defined (decode w).f (decode w).sl (decode w).a (decode w).b
    (decode w).c hc
  obtain ⟨r3, h3⟩ := dis_fcn_defined (decode w).f ((decode w).sh ^^^ 2) (decode w).a
    (decode w).b (decode w).c hc
  obtain ⟨r4, h4⟩ := dis_fcn_defined (decode w).f ((decode w).sl ^^^ 2) (decode w).a
    (decode w).b (decode w).c hc
  by_cases hs : (decode w).sh = (decode w).sl
  · cases h1b : w.testBit 1
    · have hm0 : (decode w).m = 0 := by
        by_contra hne
        rw [hm.mp hne] at h1b
        exact Bool.noConfusion h1b
      simp [inst_column, column_writes, spec_column, spec_calls, fcn_calls, written,
        Write.text, Write.isFcn, h, hs, h1b, hm0, h2, String.append_assoc]
    · have hm1 : (decode w).m ≠ 0 := hm.mpr h1b
      rw [hs] at h3
      simp [inst_column, column_writes, spec_column, spec_calls, fcn_calls, written,
        Write.text, Write.isFcn, h, hs, h1b, hm1, h2, h3, h4, String.append_assoc]
  · cases h1b : w.testBit 1
    · have hm0 : (decode w).m = 0 := by
        by_contra hne
        rw [hm.mp hne] at h1b
        exact Bool.noConfusion h1b
      simp [inst_column, column_writes, spec_column, spec_calls, fcn_calls, written,
        Write.text, Write.isFcn, h, hs, h1b, hm0, h1, h2, String.append_assoc]
    · have hm1 : (decode w).m ≠ 0 := hm.mpr h1b
      simp [inst_column, column_writes, spec_column, spec_calls, fcn_calls, written,
        Write.text, Write.isFcn, h, hs, h1b, hm1, h1, h2, h3, h4, String.append_assoc]

/-! ## The claims -/

/-- C1: for every function code `f` and select code `s` in 0..7, registers
`a`, `b` in 0..15 and carry bit `c` in 0..1, `dis_fcn` writes exactly entry
`(f, s)` of the specification's table, with the registers as `R` and a
lowercase hexadecimal digit and the suffix `pc` (row 0), `mc` (rows 1, 2) or
none (rows 3..7), and what it writes is not empty. -/
theorem dis_fcn_eq_spec_entry (f s a b c : Nat) (hf : f < 8) (hs : s < 8)
    (ha : a < 16) (hb : b < 16) (hc : c < 2) :
    dis_fcn f s a b c = some (spec_entry f s a b c) ∧ spec_entry f s a b c ≠ "" :=
  dis_fcn_table f s a b c hf hs ha hb hc

/-- C1, the two scenarios of the specification: `(f, s, a, b, c) = (0, 0, 3, 5, 1)`
is written `R3 + q + 1`, and `(7, 5, 2, 0, 0)` is written `!d & R2`. -/
theorem dis_fcn_eq_spec_entry_witness :
    dis_fcn 0 0 3 5 1 = some "R3 + q + 1" ∧ dis_fcn 7 5 2 0 0 = some "!d & R2" :=
  ⟨(dis_fcn_eq_spec_entry 0 0 3 5 1 (by decide) (by decide) (by decide) (by decide)
      (by decide)).1.trans (by decide),
   (dis_fcn_eq_spec_entry 7 5 2 0 0 (by decide) (by decide) (by decide) (by decide)
      (by decide)).1.trans (by decide)⟩

/-- C2: the fields extracted by `disassemble_inst` follow the bit layout:
`a` is bits 20-23, `b` bits 16-19, `f` bits 8-10, `sl` bits 12-14, `d` bits
4-6 of the word, the flags `H L S J M C` are set exactly when bits 11, 7, 3, 2,
1, 0 are set, and so `a`, `b` are in 0..15 and `f`, `sl`, `d` in 0..7.  It
holds for every word, of 24 bits or more. -/
theorem decode_bit_layout (w : Nat) :
    ((decode w).a = w / 2 ^ 20 % 16 ∧ (decode w).b = w / 2 ^ 16 % 16 ∧
      (decode w).f = w / 2 ^ 8 % 8 ∧ (decode w).sl = w / 2 ^ 12 % 8 ∧
      (decode w).d = w / 2 ^ 4 % 8) ∧
    (((decode w).h ≠ 0 ↔ w.testBit 11 = true) ∧ ((decode w).l ≠ 0 ↔ w.testBit 7 = true) ∧
      ((decode w).s ≠ 0 ↔ w.testBit 3 = true) ∧ ((decode w).j ≠ 0 ↔ w.testBit 2 = true) ∧
      ((decode w).m ≠ 0 ↔ w.testBit 1 = true) ∧ ((decode w).c ≠ 0 ↔ w.testBit 0 = true)) ∧
    ((decode w).a < 16 ∧ (decode w).b < 16 ∧ (decode w).f < 8 ∧ (decode w).sl < 8 ∧
      (decode w).d < 8) := by
  refine ⟨⟨decode_a w, decode_b w, decode_f w, decode_sl w, decode_d w⟩,
    ⟨decode_h w, decode_l w, decode_s w, decode_j w, decode_m w, decode_c w⟩, ?_⟩
  rw [decode_a, decode_b, decode_f, decode_sl, decode_d]
  omega

/-- C3: the high-select code `sh` is bits 12-15 of the word masked with binary
`1011`, less 4 when the masked value exceeds 7, and it always lies in 0..7. -/
theorem decode_sh_range (w : Nat) :
    (decode w).sh =
        (if (w / 2 ^ 12 % 16) &&& 0b1011 > 7 then ((w / 2 ^ 12 % 16) &&& 0b1011) - 4
         else (w / 2 ^ 12 % 16) &&& 0b1011) ∧
      (decode w).sh < 8 :=
  ⟨decode_sh w, decode_sh_lt w⟩

/-- C4, as stated, fails at the word `0x0000d0`: its lower 16 bits with bits 2
and 6 masked out are the sentinel `0x0090`, yet the marker is not written
(the ordinary column is), while `0x000090`, which differs from it in bit 6
only, does get the marker. -/
theorem load_addr_bit6_counterexample :
    spec_is_load_addr 0x0000d0 = true ∧ column_writes 0x0000d0 ≠ load_addr_marker ∧
      inst_column 0x0000d0 = some "R0 = 1/2 * (R0 + q) " ∧
      column_writes 0x000090 = load_addr_marker := by
  decide

/-- C4, amended: the address-load marker is written in place of the
destination/expression column exactly when the lower 16 bits of the word are
`0x0090` or `0x0094`, that is when they equal the sentinel `0x0090` once bit 2
alone is masked out; bit 2 has no influence on it (bit 6 has: it must be
clear). -/
theorem load_addr_marker_iff (w : Nat) :
    (column_writes w = load_addr_marker ↔ (w % 2 ^ 16 = 0x0090 ∨ w % 2 ^ 16 = 0x0094)) ∧
      (column_writes (w ^^^ 4) = load_addr_marker ↔ column_writes w = load_addr_marker) := by
  have key : ∀ v : Nat, is_load_addr v = true ↔ (v &&& 0xfffb = 0x0090) := by
    intro v; simp [is_load_addr]
  refine ⟨?_, ?_⟩
  · rw [column_writes_marker_iff, key, mask_fffb]
  · rw [column_writes_marker_iff, column_writes_marker_iff, key, key, xor_four_and_fffb]

/-- C5, the failing word `0x000004` (flag J set, flag L clear): the jump
address is printed without ever having been assigned, so the text written by
`disassemble_inst` is not defined. -/
theorem disassemble_inst_jump_unassigned :
    (decode 0x000004).j ≠ 0 ∧ (decode 0x000004).l = 0 ∧ jmp_addr 0x000004 = none ∧
      (disassemble_inst 0x000004).1 = none := by
  decide

/-- C6: for a 24-bit word with flag L set, the jump address is bits 16-23 of
the word, which is `16 * a + b` for the decoded `a`, `b` and lies in 0..255;
with L clear no jump address is decoded. -/
theorem jmp_addr_bits (w : Nat) (hw : w < 2 ^ 24) :
    (w.testBit 7 = true →
        jmp_addr w = some (w / 2 ^ 16 % 2 ^ 8) ∧
        w / 2 ^ 16 % 2 ^ 8 = 16 * (decode w).a + (decode w).b ∧
        w / 2 ^ 16 % 2 ^ 8 < 256) ∧
      (w.testBit 7 = false → jmp_addr w = none) := by
  have hl := decode_l w
  constructor
  · intro h7
    have hne : (decode w).l ≠ 0 := hl.mpr h7
    refine ⟨?_, ?_, ?_⟩
    · simp only [jmp_addr, hne, ne_eq, not_false_eq_true, if_true, Nat.shiftRight_eq_div_pow]
      congr 1
      omega
    · rw [decode_a, decode_b]; omega
    · omega
  · intro h7
    have hz : (decode w).l = 0 := by
      by_contra hne
      rw [hl.mp hne] at h7
      exact Bool.noConfusion h7
    simp [jmp_addr, hz]

/-- C6 at the word `0xab0080` (L set, `a = 0xa`, `b = 0xb`): the jump address
is `0xab`; at `0xab0000` (L clear) there is none. -/
theorem jmp_addr_bits_witness :
    jmp_addr 0xab0080 = some 0xab ∧ 0xab = 16 * (decode 0xab0080).a + (decode 0xab0080).b ∧
      jmp_addr 0xab0000 = none :=
  ⟨((jmp_addr_bits 0xab0080 (by decide)).1 (by decide)).1,
   ((jmp_addr_bits 0xab0080 (by decide)).1 (by decide)).2.1,
   (jmp_addr_bits 0xab0000 (by decide)).2 (by decide)⟩

/-- C8: the end-of-sequence flag returned through `eos` is `H || (J && !S)`,
with H, J, S the bits 11, 2, 3 of the word, whatever the other bits are. -/
theorem disassemble_inst_eos (w : Nat) :
    (disassemble_inst w).2 = (w.testBit 11 || (w.testBit 2 && !w.testBit 3)) :=
  eos_eq_bits w

/-- C7: for a word with flags L and J set (and of at most 28 bits, so every
24-bit word), the jump column is `->` followed by the jump address in three
lowercase hexadecimal digits, in parentheses when S is set and without them
when S is clear, padded with blanks to nine characters; for a word with J
clear the jump column is nine blanks. -/
theorem jump_column_text (w : Nat) (hw : w < 2 ^ 28) :
    (w.testBit 7 = true → w.testBit 2 = true →
        jmp_addr w = some (w / 2 ^ 16) ∧
        jump_column w =
          some (if w.testBit 3 = true then " (->" ++ hex3 (w / 2 ^ 16) ++ ") "
                else "  ->" ++ hex3 (w / 2 ^ 16) ++ "  ")) ∧
      (w.testBit 2 = false → jump_column w = some "         ") := by
  refine ⟨fun hl hj => ⟨?_, ?_⟩, jump_column_of_not_j w⟩
  · have hL : (decode w).l ≠ 0 := (decode_l w).mpr hl
    simp [jmp_addr, hL, Nat.shiftRight_eq_div_pow]
  · rw [jump_column_of_j w hl hj, hex03_eq_hex3 (w / 2 ^ 16) (by omega)]

/-- C7, the scenario of the specification: with L, J, S set and jump address
`0x123` the jump column holds `(->123)`, with S clear it holds `->123`, and
with J clear it is blank. -/
theorem jump_column_text_witness :
    jump_column 0x123008c = some " (->123) " ∧ jump_column 0x1230084 = some "  ->123  " ∧
      jump_column 0x123008a = some "         " :=
  ⟨((jump_column_text 0x123008c (by decide)).1 (by decide) (by decide)).2.trans (by decide),
   ((jump_column_text 0x1230084 (by decide)).1 (by decide) (by decide)).2.trans (by decide),
   (jump_column_text 0x123008a (by decide)).2 (by decide)⟩

/-- C9: the selector `show_y` is `H || (J && S)`, with H, J, S the bits 11, 2,
3 of the word, whatever the other bits are; the destination prefix is taken
from the y-variant of the table when `show_y` is true and from the plain
variant when it is false, it is the first write of the column of every word
that is not an address-load, and the two variants differ for every
destination code but 1. -/
theorem show_y_selects_variant (w : Nat) :
    show_y w = (w.testBit 11 || (w.testBit 2 && w.testBit 3)) ∧
      destination w =
        (if (w.testBit 11 || (w.testBit 2 && w.testBit 3)) = true then
          dest_y (decode w).d (decode w).a (decode w).b
         else dest_no_y (decode w).d (decode w).b) ∧
      (is_load_addr w = false → (column_writes w).head? = some (.str (destination w))) ∧
      ((decode w).d ≠ 1 →
        dest_y (decode w).d (decode w).a (decode w).b ≠ dest_no_y (decode w).d (decode w).b) := by
  refine ⟨show_y_eq_bits w, ?_, ?_, ?_⟩
  · simp only [destination, show_y_eq_bits]
  · intro h
    simp [column_writes, h]
  · have hd := decode_d_lt w
    generalize (decode w).d = d at hd
    intro hne
    interval_cases d <;> simp_all [dest_y, dest_no_y, String.ext_iff]

/-- C9 at the words `0x000800` (H set: y-variant, `y = q = (`) and `0x000000`
(plain variant, `q = (`). -/
theorem show_y_selects_variant_witness :
    (column_writes 0x000800).head? = some (.str "y = q = (") ∧
      (column_writes 0x000000).head? = some (.str "q = (") ∧
      dest_y (decode 0x000800).d (decode 0x000800).a (decode 0x000800).b
        ≠ dest_no_y (decode 0x000800).d (decode 0x000800).b :=
  ⟨((show_y_selects_variant 0x000800).2.2.1 (by decide)).trans (by decide),
   ((show_y_selects_variant 0x000000).2.2.1 (by decide)).trans (by decide),
   (show_y_selects_variant 0x000800).2.2.2 (by decide)⟩

/-- C10, as stated, fails at the word `0x000000`: the column written is
`q = (R0 + q) `, which ends in a blank after the closing parenthesis, and not
the composition that ends with the closing parenthesis itself. -/
theorem inst_column_closing_counterexample :
    is_load_addr 0x000000 = false ∧ inst_column 0x000000 = some "q = (R0 + q) " ∧
      spec_column ")" 0x000000 = "q = (R0 + q)" ∧
      inst_column 0x000000 ≠ some (spec_column ")" 0x000000) := by
  decide

/-- C10, amended: for every word that is not an address-load, the column
written is the destination prefix, the rendering for `sh`, then `, ` and the
rendering for `sl` when `sh != sl`, then, when M is set, ` ? `, the rendering
for `sh XOR 2` and (when `sh != sl`) `, ` and the rendering for `sl XOR 2`,
then a closing parenthesis followed by one blank; every rendering is defined,
and `dis_fcn` is called once when `sh = sl` and M is clear, four times when
`sh != sl` and M is set, twice otherwise. -/
theorem inst_column_composition (w : Nat) (h : is_load_addr w = false) :
    inst_column w = some (spec_column ") " w) ∧
      fcn_calls (column_writes w) = spec_calls w ∧
      (∀ s, ∃ r, dis_fcn (decode w).f s (decode w).a (decode w).b (decode w).c = some r) :=
  ⟨(inst_column_eq w h).1, (inst_column_eq w h).2,
   fun s => dis_fcn_defined _ s _ _ _ (decode_c_lt w)⟩

/-- C10, amended, at the words `0x5a4772` (`sh = 0`, `sl = 4`, M set: four
calls), `0x5ac772` (`sh = sl = 4`, M set: two calls) and `0x000000` (one
call). -/
theorem inst_column_composition_witness :
    (inst_column 0x5a4772 = some "Ra = 2 * (!R5 ^ q, !R5 ? !q, !d & q) " ∧
        fcn_calls (column_writes 0x5a4772) = 4) ∧
      (inst_column 0x5ac772 = some "Ra = 2 * (!R5 ? !d & q) " ∧
        fcn_calls (column_writes 0x5ac772) = 2) ∧
      (inst_column 0x000000 = some "q = (R0 + q) " ∧
        fcn_calls (column_writes 0x000000) = 1) :=
  ⟨⟨(inst_column_composition 0x5a4772 (by decide)).1.trans (by decide),
    (inst_column_composition 0x5a4772 (by decide)).2.1.trans (by decide)⟩,
   ⟨(inst_column_composition 0x5ac772 (by decide)).1.trans (by decide),
    (inst_column_composition 0x5ac772 (by decide)).2.1.trans (by decide)⟩,
   ⟨(inst_column_composition 0x000000 (by decide)).1.trans (by decide),
    (inst_column_composition 0x000000 (by decide)).2.1.trans (by decide)⟩⟩

/-! ## The arguments of the calls of dis_fcn -/

theorem xor_two_lt (s : Nat) (h : s < 8) : s ^^^ 2 < 8 := by
  interval_cases s <;> decide

theorem switch_key_lt (f s : Nat) (hf : f < 8) (hs : s < 8) : (f <<< 3) ||| s < 64 := by
  interval_cases f <;> interval_cases s <;> decide

theorem mem_column_writes_fcn (w f s a b c : Nat) (h : Write.fcn f s a b c ∈ column_writes w) :
    f = (decode w).f ∧ a = (decode w).a ∧ b = (decode w).b ∧ c = (decode w).c ∧
      (s = (decode w).sh ∨ s = (decode w).sl ∨ s = (decode w).sh ^^^ 2 ∨
        s = (decode w).sl ^^^ 2) := by
  unfold column_writes at h
  by_cases hl : is_load_addr w = true
  · simp [hl] at h
  · by_cases hs : (decode w).sh = (decode w).sl <;> by_cases hm : (decode w).m = 0 <;>
      simp [hl, hs, hm] at h <;> aesop

/-! ## The select codes -/

theorem decode_sh_eq (w : Nat) :
    (decode w).sh = w / 2 ^ 12 % 4 + 4 * (w / 2 ^ 15 % 2) := by
  rw [decode_sh]
  have hlt : w / 2 ^ 12 % 16 < 16 := Nat.mod_lt _ (by decide)
  have h1 : w / 2 ^ 12 % 4 = (w / 2 ^ 12 % 16) % 4 := by omega
  have h2 : w / 2 ^ 15 % 2 = (w / 2 ^ 12 % 16) / 8 := by omega
  rw [h1, h2]
  generalize w / 2 ^ 12 % 16 = x at hlt
  interval_cases x <;> decide

theorem decode_sl_eq (w : Nat) :
    (decode w).sl = w / 2 ^ 12 % 4 + 4 * (w / 2 ^ 14 % 2) := by
  rw [decode_sl]; omega

theorem testBit_eq_iff_div_mod (x y i j : Nat) :
    x.testBit i = y.testBit j ↔ x / 2 ^ i % 2 = y / 2 ^ j % 2 := by
  rw [Nat.testBit_to_div_mod, Nat.testBit_to_div_mod]
  have hx : x / 2 ^ i % 2 < 2 := Nat.mod_lt _ (by decide)
  have hy : y / 2 ^ j % 2 < 2 := Nat.mod_lt _ (by decide)
  generalize x / 2 ^ i % 2 = p at hx
  generalize y / 2 ^ j % 2 = q at hy
  interval_cases p <;> interval_cases q <;> simp

theorem and_two_pow_eq (x k : Nat) : x &&& 2 ^ k = 2 ^ k * (x / 2 ^ k % 2) := by
  have hb := Nat.testBit_to_div_mod (x := x) (i := k)
  have hlt : x / 2 ^ k % 2 < 2 := Nat.mod_lt _ (by decide)
  apply Nat.eq_of_testBit_eq
  intro i
  rw [Nat.testBit_and, Nat.testBit_two_pow]
  by_cases hik : k = i
  · subst hik
    generalize x / 2 ^ k % 2 = p at hb hlt
    interval_cases p
    · simp [hb]
    · simp [hb, Nat.testBit_two_pow]
  · generalize x / 2 ^ k % 2 = p at hb hlt
    interval_cases p
    · simp [hik]
    · simp [hik, Nat.testBit_two_pow]

theorem encode_decode (w : Nat) (hw : w < 2 ^ 24) : encode (decode w) = w := by
  have hsh := decode_sh_eq w
  have ha := decode_a w
  have hb := decode_b w
  have hf := decode_f w
  have hsl := decode_sl w
  have hd := decode_d w
  have hh : (decode w).h = 2 ^ 11 * (w / 2 ^ 11 % 2) := and_two_pow_eq w 11
  have hl : (decode w).l = 2 ^ 7 * (w / 2 ^ 7 % 2) := and_two_pow_eq w 7
  have hs : (decode w).s = 2 ^ 3 * (w / 2 ^ 3 % 2) := and_two_pow_eq w 3
  have hj : (decode w).j = 2 ^ 2 * (w / 2 ^ 2 % 2) := and_two_pow_eq w 2
  have hm : (decode w).m = 2 ^ 1 * (w / 2 ^ 1 % 2) := and_two_pow_eq w 1
  have hc := decode_c_eq w
  unfold encode
  rw [hsh, ha, hb, hf, hsl, hd, hh, hl, hs, hj, hm, hc]
  omega

theorem dest_ne_comma (w : Nat) : destination w ≠ ", " := by
  have hd := decode_d_lt w
  simp only [destination]
  generalize (decode w).d = d at hd
  cases show_y w <;> interval_cases d <;> simp [dest_y, dest_no_y, String.ext_iff]

theorem comma_mem_column_writes (w : Nat) (h : is_load_addr w = false) :
    Write.str ", " ∈ column_writes w ↔ (decode w).sh ≠ (decode w).sl := by
  have hne : ¬ ", " = destination w := fun e => dest_ne_comma w e.symm
  unfold column_writes
  by_cases hs : (decode w).sh = (decode w).sl <;> by_cases hm : (decode w).m = 0 <;>
    simp [h, hs, hm, hne]

theorem xor_bit_shift_mask (w k t m : Nat) (hm : k < t ∨ m.testBit (k - t) = false) :
    ((w ^^^ 2 ^ k) >>> t) &&& m = (w >>> t) &&& m := by
  apply Nat.eq_of_testBit_eq
  intro i
  simp only [Nat.testBit_and, Nat.testBit_shiftRight, Nat.testBit_xor, Nat.testBit_two_pow]
  by_cases hk : k = t + i
  · have hbit : m.testBit i = false := by
      rcases hm with hlt | hb
      · omega
      · have hi : k - t = i := by omega
        rw [hi] at hb
        exact hb
    simp [hbit]
  · simp [hk]

theorem xor_bit_mask (w k m : Nat) (hm : m.testBit k = false) :
    (w ^^^ 2 ^ k) &&& m = w &&& m := by
  have key := xor_bit_shift_mask w k 0 m (Or.inr (by simpa using hm))
  simpa using key

theorem decode_flip_bit15 (w : Nat) :
    decode (w ^^^ 0x8000) = { decode w with sh := (decode (w ^^^ 0x8000)).sh } := by
  have e : (0x8000 : Nat) = 2 ^ 15 := by decide
  rw [e]
  simp only [decode, DecodedFields.mk.injEq, true_and, and_true]
  refine ⟨?_, ?_, ?_, ?_, ?_, ?_, ?_, ?_, ?_, ?_, ?_⟩
  · exact xor_bit_shift_mask w 15 20 _ (Or.inl (by decide))
  · exact xor_bit_shift_mask w 15 16 _ (Or.inl (by decide))
  · exact xor_bit_shift_mask w 15 8 _ (Or.inr (by decide))
  · exact xor_bit_shift_mask w 15 12 _ (Or.inr (by decide))
  · exact xor_bit_shift_mask w 15 4 _ (Or.inr (by decide))
  · exact xor_bit_mask w 15 _ (by decide)
  · exact xor_bit_mask w 15 _ (by decide)
  · exact xor_bit_mask w 15 _ (by decide)
  · exact xor_bit_mask w 15 _ (by decide)
  · exact xor_bit_mask w 15 _ (by decide)
  · exact xor_bit_mask w 15 _ (by decide)

theorem decode_sh_flip_bit15 (w : Nat) : (decode (w ^^^ 0x8000)).sh ≠ (decode w).sh := by
  have e : (0x8000 : Nat) = 2 ^ 15 := by decide
  have hx : (w ^^^ 0x8000).testBit 15 = !(w.testBit 15) := by
    rw [e, Nat.testBit_xor, Nat.testBit_two_pow]; simp
  have hlow : (w ^^^ 0x8000) / 2 ^ 12 % 4 = w / 2 ^ 12 % 4 := by
    have h1 := xor_bit_shift_mask w 15 12 3 (Or.inr (by decide))
    rw [← e] at h1
    have h2 := shift_mask (w ^^^ 0x8000) 12 2
    have h3 := shift_mask w 12 2
    simp only [Nat.reducePow, Nat.add_one_sub_one] at h2 h3
    omega
  rw [decode_sh_eq, decode_sh_eq, hlow]
  rw [Nat.testBit_to_div_mod, Nat.testBit_to_div_mod] at hx
  have p1 : (w ^^^ 0x8000) / 2 ^ 15 % 2 < 2 := Nat.mod_lt _ (by decide)
  have p2 : w / 2 ^ 15 % 2 < 2 := Nat.mod_lt _ (by decide)
  generalize (w ^^^ 0x8000) / 2 ^ 15 % 2 = p at hx p1
  generalize w / 2 ^ 15 % 2 = q at hx p2
  interval_cases p <;> interval_cases q <;> simp_all

/-! ## The claims on the calls, the carry bit and the select codes -/

/-- C11: every call of `dis_fcn` that `disassemble_inst` makes (all are in the
last column; the flag letters and the jump column make none) passes a function
code in 0..7, a select code in 0..7, register indices in 0..15 and a carry bit
in 0..1; so the switch key `(f << 3) | s` is one of the 64 case labels, the
index into `pc` / `mc` is in bounds, and the call writes a non-empty text. -/
theorem dis_fcn_call_arguments (w : Nat) :
    (∀ f s a b c, Write.fcn f s a b c ∈ column_writes w →
        (f < 8 ∧ s < 8 ∧ a < 16 ∧ b < 16 ∧ c < 2) ∧ (f <<< 3) ||| s < 64 ∧
        ((pc c).isSome = true ∧ (mc c).isSome = true) ∧
        ∃ r, dis_fcn f s a b c = some r ∧ r ≠ "") ∧
      fcn_calls (flag_writes w) = 0 ∧
      (∀ jw, jump_writes w = some jw → fcn_calls jw = 0) := by
  refine ⟨?_, ?_, ?_⟩
  · intro f s a b c hmem
    obtain ⟨hf, ha, hb, hc, hs⟩ := mem_column_writes_fcn w f s a b c hmem
    have hf8 : f < 8 := hf ▸ decode_f_lt w
    have ha16 : a < 16 := ha ▸ decode_a_lt w
    have hb16 : b < 16 := hb ▸ decode_b_lt w
    have hc2 : c < 2 := hc ▸ decode_c_lt w
    have hs8 : s < 8 := by
      rcases hs with h | h | h | h
      · exact h ▸ decode_sh_lt w
      · exact h ▸ decode_sl_lt w
      · exact h ▸ xor_two_lt _ (decode_sh_lt w)
      · exact h ▸ xor_two_lt _ (decode_sl_lt w)
    have ht := dis_fcn_table f s a b c hf8 hs8 ha16 hb16 hc2
    refine ⟨⟨hf8, hs8, ha16, hb16, hc2⟩, switch_key_lt f s hf8 hs8, ?_, _, ht.1, ht.2⟩
    interval_cases c <;> decide
  · simp [fcn_calls, flag_writes, Write.isFcn]
  · intro jw hjw
    unfold jump_writes at hjw
    by_cases hj : (decode w).j = 0
    · simp [hj] at hjw
      subst hjw
      simp [fcn_calls, Write.isFcn]
    · by_cases hs : (decode w).s = 0 <;> cases hja : jmp_addr w <;>
        simp [hj, hs, hja] at hjw <;> subst hjw <;> simp [fcn_calls, Write.isFcn]

/-- C11 at the word `0x5a4772`: its four calls have select codes 0, 4, 2, 6,
all with `f = 7`, `a = 5`, `b = 10`, `c = 0`. -/
theorem dis_fcn_call_arguments_witness :
    (Write.fcn 7 0 5 10 0 ∈ column_writes 0x5a4772 ∧
        Write.fcn 7 6 5 10 0 ∈ column_writes 0x5a4772) ∧
      ∃ r, dis_fcn 7 6 5 10 0 = some r ∧ r ≠ "" :=
  ⟨by decide, ((dis_fcn_call_arguments 0x5a4772).1 7 6 5 10 0 (by decide)).2.2.2⟩

/-- C18: the carry bit changes only the suffix, and only in the add and
subtract families.  For function codes 3..7 `dis_fcn` writes the same text for
`c = 0` and `c = 1`; for `f = 0` the text for `c = 1` is the text for `c = 0`
followed by ` + 1`; for `f = 1` and `f = 2` the text for `c = 0` is the text
for `c = 1` followed by ` - 1`. -/
theorem dis_fcn_carry (f s a b : Nat) (hf : f < 8) (hs : s < 8) :
    ∃ r0 r1, dis_fcn f s a b 0 = some r0 ∧ dis_fcn f s a b 1 = some r1 ∧
      (3 ≤ f → r0 = r1) ∧ (f = 0 → r1 = r0 ++ " + 1") ∧
      (f = 1 ∨ f = 2 → r0 = r1 ++ " - 1") := by
  interval_cases f <;> interval_cases s <;>
    simp [dis_fcn, pc, mc, String.append_assoc]

/-- C18 at `(f, s, a, b) = (0, 0, 3, 5)`, `(1, 1, 3, 5)` and `(4, 1, 3, 5)`. -/
theorem dis_fcn_carry_witness :
    (dis_fcn 0 0 3 5 0 = some "R3 + q" ∧ dis_fcn 0 0 3 5 1 = some "R3 + q + 1") ∧
      (dis_fcn 1 1 3 5 0 = some "R5 - R3 - 1" ∧ dis_fcn 1 1 3 5 1 = some "R5 - R3") ∧
      (∃ r0 r1, dis_fcn 4 1 3 5 0 = some r0 ∧ dis_fcn 4 1 3 5 1 = some r1 ∧
        (3 ≤ 4 → r0 = r1) ∧ (4 = 0 → r1 = r0 ++ " + 1") ∧
        (4 = 1 ∨ 4 = 2 → r0 = r1 ++ " - 1")) :=
  ⟨by decide, by decide, dis_fcn_carry 4 1 3 5 (by decide) (by decide)⟩

theorem load_addr_sh_eq_sl (w : Nat) (h : is_load_addr w = true) :
    (decode w).sh = (decode w).sl := by
  have hm : w % 2 ^ 16 = 0x0090 ∨ w % 2 ^ 16 = 0x0094 := by
    apply (mask_fffb w).mp
    simpa [is_load_addr] using h
  rw [decode_sh_eq, decode_sl_eq]
  omega

theorem alternate_in_column (w : Nat) :
    [Write.str ", ", Write.fcn (decode w).f (decode w).sl (decode w).a (decode w).b (decode w).c]
        <:+: column_writes w ↔ (decode w).sh ≠ (decode w).sl := by
  cases hl : is_load_addr w
  · constructor
    · intro hin
      exact (comma_mem_column_writes w hl).mp (hin.subset (List.mem_cons_self _ _))
    · intro hs
      refine ⟨[Write.str (destination w),
          Write.fcn (decode w).f (decode w).sh (decode w).a (decode w).b (decode w).c],
        (if (decode w).m ≠ 0 then
          [Write.str " ? ",
            Write.fcn (decode w).f ((decode w).sh ^^^ 2) (decode w).a (decode w).b (decode w).c]
          ++ [Write.str ", ",
            Write.fcn (decode w).f ((decode w).sl ^^^ 2) (decode w).a (decode w).b (decode w).c]
         else []) ++ [Write.str ") "], ?_⟩
      simp [column_writes, hl, hs]
  · have hs := load_addr_sh_eq_sl w hl
    constructor
    · intro hin
      have hlen := hin.length_le
      simp [column_writes, hl] at hlen
    · intro hne
      exact absurd hs hne

theorem alternate_text (w : Nat) (hs : (decode w).sh ≠ (decode w).sl) :
    ∃ r, dis_fcn (decode w).f (decode w).sl (decode w).a (decode w).b (decode w).c = some r ∧
      r ≠ "" ∧ ∃ before after, inst_column w = some (before ++ ", " ++ r ++ after) := by
  have hl : is_load_addr w = false := by
    cases h : is_load_addr w
    · rfl
    · exact absurd (load_addr_sh_eq_sl w h) hs
  have ht := dis_fcn_table (decode w).f (decode w).sl (decode w).a (decode w).b (decode w).c
    (decode_f_lt w) (decode_sl_lt w) (decode_a_lt w) (decode_b_lt w) (decode_c_lt w)
  refine ⟨_, ht.1, ht.2, ?_⟩
  refine ⟨destination w ++ (dis_fcn (decode w).f (decode w).sh (decode w).a (decode w).b
      (decode w).c).getD "",
    (if w.testBit 1 = true then
      " ? " ++ (dis_fcn (decode w).f ((decode w).sh ^^^ 2) (decode w).a (decode w).b
          (decode w).c).getD ""
        ++ (", " ++ (dis_fcn (decode w).f ((decode w).sl ^^^ 2) (decode w).a (decode w).b
          (decode w).c).getD "")
     else "") ++ ") ", ?_⟩
  rw [(inst_column_eq w hl).1]
  simp [spec_column, hs, ht.1, String.append_assoc]

/-- C19: `sh` and `sl` share their two low bits (bits 12, 13 of the word),
bit 2 of `sh` is bit 15 of the word and bit 2 of `sl` is bit 14; so
`sh != sl` exactly when bits 14 and 15 differ, and they then differ by exactly
4.  The alternate expression is printed exactly in that case, for every word:
the write of `, ` followed by the call `dis_fcn (file, f, sl, a, b, c)` is
part of the column exactly when bits 14 and 15 differ, no `, ` is written
otherwise, and when they differ the text of the column holds `, ` followed by
the non-empty text of that call. -/
theorem sh_sl_bits (w : Nat) :
    ((decode w).sh % 4 = w / 2 ^ 12 % 4 ∧ (decode w).sl % 4 = w / 2 ^ 12 % 4) ∧
      ((decode w).sh.testBit 2 = w.testBit 15 ∧ (decode w).sl.testBit 2 = w.testBit 14) ∧
      ((decode w).sh ≠ (decode w).sl ↔ w.testBit 14 ≠ w.testBit 15) ∧
      ((decode w).sh ≠ (decode w).sl →
        (decode w).sh + 4 = (decode w).sl ∨ (decode w).sl + 4 = (decode w).sh) ∧
      (Write.str ", " ∈ column_writes w ↔ w.testBit 14 ≠ w.testBit 15) ∧
      ([Write.str ", ",
          Write.fcn (decode w).f (decode w).sl (decode w).a (decode w).b (decode w).c]
        <:+: column_writes w ↔ w.testBit 14 ≠ w.testBit 15) ∧
      (w.testBit 14 ≠ w.testBit 15 →
        ∃ r, dis_fcn (decode w).f (decode w).sl (decode w).a (decode w).b (decode w).c = some r ∧
          r ≠ "" ∧ ∃ before after, inst_column w = some (before ++ ", " ++ r ++ after)) := by
  have hsh := decode_sh_eq w
  have hsl := decode_sl_eq w
  have hne : (decode w).sh ≠ (decode w).sl ↔ w.testBit 14 ≠ w.testBit 15 := by
    rw [Ne, Ne, testBit_eq_iff_div_mod]
    omega
  refine ⟨⟨by omega, by omega⟩, ⟨?_, ?_⟩, hne, by omega, ?_, ?_, ?_⟩
  · rw [testBit_eq_iff_div_mod]; omega
  · rw [testBit_eq_iff_div_mod]; omega
  · rw [← hne]
    constructor
    · intro hmem
      cases hl : is_load_addr w
      · exact (comma_mem_column_writes w hl).mp hmem
      · simp [column_writes, hl] at hmem
    · intro hs
      exact ((alternate_in_column w).mpr hs).subset (List.mem_cons_self _ _)
  · rw [alternate_in_column w, hne]
  · intro hb
    exact alternate_text w (hne.mpr hb)

/-- C19 at the word `0x5a4772` (bit 14 set, bit 15 clear): `sh = 0`, `sl = 4`,
and `, ` with the call for `sl` is in the column; at `0x5ac772` (bits 14 and
15 both set) `sh = sl = 4` and it is not. -/
theorem sh_sl_bits_witness :
    ((decode 0x5a4772).sh = 0 ∧ (decode 0x5a4772).sl = 4 ∧
        [Write.str ", ", Write.fcn 7 4 5 10 0] <:+: column_writes 0x5a4772 ∧
        inst_column 0x5a4772 = some "Ra = 2 * (!R5 ^ q, !R5 ? !q, !d & q) ") ∧
      ((decode 0x5ac772).sh = 4 ∧ (decode 0x5ac772).sl = 4 ∧
        ¬ [Write.str ", ", Write.fcn 7 4 5 10 0] <:+: column_writes 0x5ac772 ∧
        inst_column 0x5ac772 = some "Ra = 2 * (!R5 ? !d & q) ") :=
  ⟨⟨by decide, by decide, (sh_sl_bits 0x5a4772).2.2.2.2.2.1.mpr (by decide), by decide⟩,
   ⟨by decide, by decide,
    fun h => absurd ((sh_sl_bits 0x5ac772).2.2.2.2.2.1.mp h) (by decide), by decide⟩⟩

/-- C20: the decoded fields determine the word.  For a 24-bit word `w`,
rebuilding from the fields gives `w` back, and any 24-bit word with the same
fields is `w`; flipping bit 15 changes `sh` and no other field, so bit 15 is
held by `sh` alone. -/
theorem decode_lossless (w : Nat) (hw : w < 2 ^ 24) :
    encode (decode w) = w ∧
      (∀ v, v < 2 ^ 24 → decode v = decode w → v = w) ∧
      decode (w ^^^ 0x8000) = { decode w with sh := (decode (w ^^^ 0x8000)).sh } ∧
      (decode (w ^^^ 0x8000)).sh ≠ (decode w).sh := by
  refine ⟨encode_decode w hw, ?_, decode_flip_bit15 w, decode_sh_flip_bit15 w⟩
  intro v hv h
  rw [← encode_decode v hv, ← encode_decode w hw, h]

/-- C20 at the word `0xab3c8f`: the fields rebuild the word, and the word
`0xabbc8f`, which differs in bit 15 only, has another `sh` (3 against 7). -/
theorem decode_lossless_witness :
    encode (decode 0xab3c8f) = 0xab3c8f ∧
      (decode 0xab3c8f).sh = 3 ∧ (decode 0xabbc8f).sh = 7 ∧ 0xab3c8f ^^^ 0x8000 = 0xabbc8f :=
  ⟨(decode_lossless 0xab3c8f (by decide)).1, by decide, by decide, by decide⟩

/-! ## The destination table -/

theorem dest_no_y_names (d b : Nat) (hd : d < 8) (hb : b < 16) :
    (dest_no_y d b).data.count '(' = 1 ∧
    (occurs "y = " (dest_no_y d b) = true ↔ d = 1) ∧
    (occurs "q = " (dest_no_y d b) = true ↔ d = 0 ∨ d = 4 ∨ d = 6) ∧
    (occurs ("R" ++ hex b ++ " = ") (dest_no_y d b) = true ↔ 2 ≤ d) ∧
    (occurs "1/2 * " (dest_no_y d b) = true ↔ d = 4 ∨ d = 5) ∧
    (occurs " 2 * " (dest_no_y d b) = true ↔ d = 6 ∨ d = 7) := by
  interval_cases d <;> interval_cases b <;> decide

theorem dest_y_names (d a b : Nat) (hd : d < 8) (ha : a < 16) (hb : b < 16) :
    (dest_y d a b).data.count '(' = 1 ∧
    (occurs "y = " (dest_y d a b) = true) ∧
    (occurs "q = " (dest_y d a b) = true ↔ d = 0 ∨ d = 4 ∨ d = 6) ∧
    (occurs ("R" ++ hex b ++ " = ") (dest_y d a b) = true ↔ 2 ≤ d) ∧
    (occurs "1/2 * " (dest_y d a b) = true ↔ d = 4 ∨ d = 5) ∧
    (occurs " 2 * " (dest_y d a b) = true ↔ d = 6 ∨ d = 7) := by
  interval_cases d
  case «2» => interval_cases a <;> interval_cases b <;> decide
  all_goals (simp only [dest_y]; interval_cases b <;> decide)

/-! ## The layout of the line -/

theorem written_append (xs ys : List Write) :
    written (xs ++ ys) = (written xs).bind fun a => (written ys).map fun r => a ++ r := by
  induction xs with
  | nil =>
    cases h : written ys <;> simp [written, h]
  | cons x xs ih =>
    cases hx : x.text <;> cases hxs : written xs <;> cases hys : written ys <;>
      simp [written, ih, hx, hxs, hys, String.append_assoc]

theorem written_flag_writes (w : Nat) : written (flag_writes w) = some (spec_flags w) := by
  have hh := decode_h w
  have hs := decode_s w
  have hl := decode_l w
  cases h11 : w.testBit 11 <;> cases h3 : w.testBit 3 <;> cases h7 : w.testBit 7 <;>
    simp_all [flag_writes, written, Write.text, spec_flags]

theorem disassemble_inst_text (w : Nat) (jc col : String) (hjc : jump_column w = some jc)
    (hcol : inst_column w = some col) :
    (disassemble_inst w).1 = some (spec_flags w ++ jc ++ col) := by
  unfold jump_column at hjc
  unfold inst_column at hcol
  cases hjw : jump_writes w with
  | none => simp [hjw] at hjc
  | some jw =>
    simp only [hjw, Option.some_bind] at hjc
    simp [disassemble_inst, inst_writes, hjw, written_append, written_flag_writes, hjc, hcol,
      String.append_assoc]

theorem inst_column_defined (w : Nat) : ∃ col, inst_column w = some col := by
  cases h : is_load_addr w
  · exact ⟨_, (inst_column_eq w h).1⟩
  · exact ⟨"--load addr--", by simp [inst_column, column_writes, h, written, Write.text]⟩

theorem hex3_length (n : Nat) : (hex3 n).length = 3 := rfl

theorem jump_column_defined (w : Nat) (hw : w < 2 ^ 28)
    (hj : w.testBit 7 = true ∨ w.testBit 2 = false) :
    ∃ jc, jump_column w = some jc ∧ jc.length = 9 := by
  cases h2 : w.testBit 2
  · exact ⟨_, jump_column_of_not_j w h2, rfl⟩
  · have h7 : w.testBit 7 = true := by
      rcases hj with h | h
      · exact h
      · rw [h2] at h; exact Bool.noConfusion h
    refine ⟨_, jump_column_of_j w h7 h2, ?_⟩
    rw [hex03_eq_hex3 (w / 2 ^ 16) (by omega)]
    cases w.testBit 3 <;> simp [String.length_append, hex3_length] <;> rfl



/-- C12: for a word that is not an address-load, the destination prefix is the
first write of the column and is a function of `show_y`, `d`, `a`, `b` alone;
it holds exactly one opening parenthesis; it names `y` (`y = `) exactly when
`show_y` is true or `d = 1`, the accumulator as a destination (`q = `) exactly
when `d` is 0, 4 or 6, register `R[b]` as a destination exactly when `d >= 2`,
the factor `1/2` exactly when `d` is 4 or 5 and the factor `2` exactly when
`d` is 6 or 7. -/
theorem destination_names (w : Nat) (h : is_load_addr w = false) :
    ((column_writes w).head? = some (.str (destination w)) ∧
      destination w =
        (if show_y w = true then dest_y (decode w).d (decode w).a (decode w).b
         else dest_no_y (decode w).d (decode w).b)) ∧
      (destination w).data.count '(' = 1 ∧
      (occurs "y = " (destination w) = true ↔ show_y w = true ∨ (decode w).d = 1) ∧
      (occurs "q = " (destination w) = true ↔
        (decode w).d = 0 ∨ (decode w).d = 4 ∨ (decode w).d = 6) ∧
      (occurs ("R" ++ hex (decode w).b ++ " = ") (destination w) = true ↔ 2 ≤ (decode w).d) ∧
      (occurs "1/2 * " (destination w) = true ↔ (decode w).d = 4 ∨ (decode w).d = 5) ∧
      (occurs " 2 * " (destination w) = true ↔ (decode w).d = 6 ∨ (decode w).d = 7) := by
  have hy := dest_y_names (decode w).d (decode w).a (decode w).b (decode_d_lt w)
    (decode_a_lt w) (decode_b_lt w)
  have hn := dest_no_y_names (decode w).d (decode w).b (decode_d_lt w) (decode_b_lt w)
  refine ⟨⟨by simp [column_writes, h], by simp only [destination]⟩, ?_⟩
  cases hs : show_y w
  · simpa [destination, hs] using hn
  · simpa [destination, hs] using hy

/-- C12 at the words `0x5a0840` (`show_y` true, `d = 4`, `b = 10`) and
`0x5a0020` (`show_y` false, `d = 2`). -/
theorem destination_names_witness :
    (destination 0x5a0840 = "q = 1/2 * q, Ra = 1/2 * (y = " ∧
        (destination 0x5a0840).data.count '(' = 1) ∧
      (destination 0x5a0020 = "Ra = (" ∧ occurs "y = " (destination 0x5a0020) = false) :=
  ⟨⟨by decide, (destination_names 0x5a0840 (by decide)).2.1⟩, by decide, by decide⟩

/-- C13: for a 24-bit word whose jump address is defined (L set or J clear),
the text written is, in this order, the three flag characters (`H`, `S`, `L`,
each a letter exactly when its flag is set and a blank otherwise), a jump
column of nine characters, and the last column; so the last column starts at
character offset 12. -/
theorem disassemble_inst_layout (w : Nat) (hw : w < 2 ^ 24)
    (hj : w.testBit 7 = true ∨ w.testBit 2 = false) :
    ∃ jc col, jump_column w = some jc ∧ inst_column w = some col ∧
      (disassemble_inst w).1 = some (spec_flags w ++ jc ++ col) ∧
      (spec_flags w).length = 3 ∧ jc.length = 9 ∧ (spec_flags w ++ jc).length = 12 := by
  obtain ⟨jc, hjc, hlen⟩ := jump_column_defined w (by omega) hj
  obtain ⟨col, hcol⟩ := inst_column_defined w
  refine ⟨jc, col, hjc, hcol, disassemble_inst_text w jc col hjc hcol, rfl, hlen, ?_⟩
  rw [String.length_append, hlen]
  rfl

/-- C13 at the word `0xab308c` (S, L and J set, jump address `0xab`). -/
theorem disassemble_inst_layout_witness :
    (disassemble_inst 0xab308c).1 = some " SL (->0ab) y = q = (Rb) " ∧
      ∃ jc col, jump_column 0xab308c = some jc ∧ inst_column 0xab308c = some col ∧
        (disassemble_inst 0xab308c).1 = some (spec_flags 0xab308c ++ jc ++ col) ∧
        (spec_flags 0xab308c).length = 3 ∧ jc.length = 9 ∧
        (spec_flags 0xab308c ++ jc).length = 12 :=
  ⟨by decide, disassemble_inst_layout 0xab308c (by decide) (by decide)⟩

/-- C14: for a word whose lower 16 bits are `0x0090` once bit 2 is cleared
(they are `0x0090` or `0x0094`), the last column is the single write of the
marker `--load addr--`: no destination prefix, no call of `dis_fcn`, no
closing parenthesis, whatever the upper bits are; the whole line of a 24-bit
such word is the flag letters, the jump column and the marker. -/
theorem load_addr_column (w : Nat) (h : w % 2 ^ 16 = 0x0090 ∨ w % 2 ^ 16 = 0x0094) :
    column_writes w = [Write.str "--load addr--"] ∧
      inst_column w = some "--load addr--" ∧
      fcn_calls (column_writes w) = 0 ∧
      (w < 2 ^ 24 → ∃ jc, jump_column w = some jc ∧ jc.length = 9 ∧
        (disassemble_inst w).1 = some (spec_flags w ++ jc ++ "--load addr--")) := by
  have hl : is_load_addr w = true := by
    simp only [is_load_addr, decide_eq_true_eq]
    exact (mask_fffb w).mpr h
  have hcw : column_writes w = [Write.str "--load addr--"] := by
    simp [column_writes, hl]
  have hcol : inst_column w = some "--load addr--" := by
    simp [inst_column, hcw, written, Write.text]
  refine ⟨hcw, hcol, by simp [hcw, fcn_calls, Write.isFcn], ?_⟩
  intro hw
  have h7 : w.testBit 7 = true := by
    rw [Nat.testBit_to_div_mod]
    simp only [decide_eq_true_eq]
    omega
  obtain ⟨jc, hjc, hlen⟩ := jump_column_defined w (by omega) (Or.inl h7)
  exact ⟨jc, hjc, hlen, disassemble_inst_text w jc _ hjc hcol⟩

/-- C14 at the word `0x000090` of the specification, and at `0xab0094`. -/
theorem load_addr_column_witness :
    (disassemble_inst 0x000090).1 = some "  L         --load addr--" ∧
      column_writes 0x000090 = [Write.str "--load addr--"] ∧
      column_writes 0xab0094 = [Write.str "--load addr--"] :=
  ⟨by decide, (load_addr_column 0x000090 (Or.inl (by decide))).1,
    (load_addr_column 0xab0094 (Or.inr (by decide))).1⟩

/-! ## The entry table -/

theorem dispatch_loop_length (ds : List Nat) (i : Nat) (e : List Int) :
    (dispatch_loop ds i e).length = e.length := by
  induction ds generalizing i e with
  | nil => rfl
  | cons d ds ih => simp [dispatch_loop, ih]

theorem dispatch_loop_not_mem (ds : List Nat) (i : Nat) (e : List Int) (x : Nat)
    (hx : x ∉ ds) : (dispatch_loop ds i e)[x]? = e[x]? := by
  induction ds generalizing i e with
  | nil => rfl
  | cons d ds ih =>
    have hd : d ≠ x := fun h => hx (h ▸ List.mem_cons_self _ _)
    have hds : x ∉ ds := fun h => hx (List.mem_cons_of_mem _ h)
    simp [dispatch_loop, ih _ _ hds, List.getElem?_set_ne hd]

theorem dispatch_loop_last (ds : List Nat) (i : Nat) (e : List Int) (x k : Nat)
    (hx : x < e.length) (hk : ds[k]? = some x) (hlast : ∀ j, k < j → ds[j]? ≠ some x) :
    (dispatch_loop ds i e)[x]? = some ((i + k : Nat) : Int) := by
  induction ds generalizing i e k with
  | nil => simp at hk
  | cons d ds ih =>
    cases k with
    | zero =>
      have hdx : d = x := by simpa using hk
      have hds : x ∉ ds := by
        intro hmem
        obtain ⟨n, hn, hget⟩ := List.getElem_of_mem hmem
        have h1 := hlast (n + 1) (Nat.succ_pos n)
        simp [List.getElem?_eq_getElem hn, hget] at h1
      subst hdx
      simp [dispatch_loop, dispatch_loop_not_mem _ _ _ _ hds, List.getElem?_set_self hx]
    | succ k =>
      have hk2 : ds[k]? = some x := by simpa using hk
      have hlast2 : ∀ j, k < j → ds[j]? ≠ some x := by
        intro j hj
        have h1 := hlast (j + 1) (Nat.succ_lt_succ hj)
        simpa using h1
      have h2 := ih (i + 1) (e.set d (i : Int)) k (by simpa using hx) hk2 hlast2
      simp only [dispatch_loop, h2]
      congr 2
      omega

/-! ## The instruction words -/

theorem ucode_loop_length (i : Nat) (ds : List Nat) (j : Nat) (ins : List Nat) :
    (ucode_loop i ds j ins).length = ins.length := by
  induction ds generalizing j ins with
  | nil => rfl
  | cons d ds ih => simp [ucode_loop, ih]

theorem ucode_loop_get (i : Nat) (ds : List Nat) (j : Nat) (ins : List Nat) (x : Nat)
    (hx : x < ins.length) :
    (ucode_loop i ds j ins).getD x 0 =
      if j ≤ x ∧ x < j + ds.length then ins.getD x 0 ||| (ds.getD (x - j) 0 <<< (i * 4))
      else ins.getD x 0 := by
  induction ds generalizing j ins with
  | nil => simp [ucode_loop]
  | cons d ds ih =>
    have hlen : x < (ins.set j (ins.getD j 0 ||| (d <<< (i * 4)))).length := by simpa using hx
    rw [ucode_loop, ih (j + 1) _ hlen]
    by_cases hjx : j = x
    · subst hjx
      simp [List.getElem?_set_self hx]
    · have hne : (ins.set j (ins.getD j 0 ||| (d <<< (i * 4)))).getD x 0 = ins.getD x 0 := by
        simp [List.getElem?_set_ne hjx]
      rw [hne]
      by_cases hlt : j < x
      · have hsub : x - j = (x - (j + 1)) + 1 := by omega
        have c1 : (j + 1 ≤ x ∧ x < j + 1 + ds.length) ↔ (j ≤ x ∧ x < j + (d :: ds).length) := by
          simp only [List.length_cons]; omega
        simp only [c1, hsub, List.getD_cons_succ]
      · have c1 : ¬ (j + 1 ≤ x ∧ x < j + 1 + ds.length) := by omega
        have c2 : ¬ (j ≤ x ∧ x < j + (d :: ds).length) := by omega
        simp only [c1, c2, if_false]

theorem ucode_rom_get (i : Nat) (rom ins : List Nat) (x : Nat) (hx : x < 256)
    (hlen : ins.length = 256) (hrom : 256 ≤ rom.length) :
    (ucode_loop i (rom.take 256) 0 ins).getD x 0 =
      ins.getD x 0 ||| (rom.getD x 0 <<< (i * 4)) := by
  rw [ucode_loop_get i _ 0 ins x (by omega)]
  have c : 0 ≤ x ∧ x < 0 + (rom.take 256).length := by
    simp only [List.length_take]; omega
  have hget : (rom.take 256).getD x 0 = rom.getD x 0 := by
    simp only [List.getD_eq_getElem?_getD, List.getElem?_take, hx, if_true]
  rw [if_pos c, Nat.sub_zero, hget]

theorem replicate_I_MAX_length (v : Nat) : (List.replicate I_MAX v).length = 256 := by
  rw [List.length_replicate]; rfl

theorem replicate_I_MAX_getD (addr : Nat) (ha : addr < 256) :
    (List.replicate I_MAX 0).getD addr 0 = 0 := by
  have h : addr < I_MAX := ha
  rw [List.getD_eq_getElem?_getD, List.getElem?_replicate, if_pos h]
  rfl

theorem read_inst_word (dispatch r0 r1 r2 r3 r4 r5 : List Nat) (hd : 32 ≤ dispatch.length)
    (h0 : 256 ≤ r0.length) (h1 : 256 ≤ r1.length) (h2 : 256 ≤ r2.length)
    (h3 : 256 ≤ r3.length) (h4 : 256 ≤ r4.length) (h5 : 256 ≤ r5.length) :
    ∃ G, read_inst dispatch [r0, r1, r2, r3, r4, r5] = some G ∧
      read_entry dispatch = some G.entry ∧ G.instruction.length = 256 ∧
      ∀ addr, addr < 256 →
        G.instruction.getD addr 0 =
          spec_word [r0.getD addr 0, r1.getD addr 0, r2.getD addr 0, r3.getD addr 0,
            r4.getD addr 0, r5.getD addr 0] := by
  have e0 : ¬ r0.length < 256 := by omega
  have e1 : ¬ r1.length < 256 := by omega
  have e2 : ¬ r2.length < 256 := by omega
  have e3 : ¬ r3.length < 256 := by omega
  have e4 : ¬ r4.length < 256 := by omega
  have e5 : ¬ r5.length < 256 := by omega
  have ed : ¬ dispatch.length < 32 := by omega
  have hent : read_entry dispatch =
      some (dispatch_loop (dispatch.take 32) 0 (List.replicate I_MAX (-1))) := by
    simp only [read_entry, if_neg ed]
  have hrom : rom_loop [r0, r1, r2, r3, r4, r5] 0 (List.replicate I_MAX 0) =
      some (ucode_loop 5 (r5.take 256) 0 (ucode_loop 4 (r4.take 256) 0
        (ucode_loop 3 (r3.take 256) 0 (ucode_loop 2 (r2.take 256) 0
          (ucode_loop 1 (r1.take 256) 0
            (ucode_loop 0 (r0.take 256) 0 (List.replicate I_MAX 0))))))) := by
    simp only [rom_loop, if_neg e0, if_neg e1, if_neg e2, if_neg e3, if_neg e4, if_neg e5]
  refine ⟨_, by rw [read_inst, hent, hrom]; rfl, hent, ?_, ?_⟩
  · simp only [ucode_loop_length, replicate_I_MAX_length]
  · intro addr ha
    have l0 := replicate_I_MAX_length 0
    simp only []
    rw [ucode_rom_get 5 r5 _ addr ha (by simp only [ucode_loop_length, l0]) h5,
      ucode_rom_get 4 r4 _ addr ha (by simp only [ucode_loop_length, l0]) h4,
      ucode_rom_get 3 r3 _ addr ha (by simp only [ucode_loop_length, l0]) h3,
      ucode_rom_get 2 r2 _ addr ha (by simp only [ucode_loop_length, l0]) h2,
      ucode_rom_get 1 r1 _ addr ha (by simp only [ucode_loop_length, l0]) h1,
      ucode_rom_get 0 r0 _ addr ha l0 h0, replicate_I_MAX_getD addr ha]
    rfl

theorem or_shiftLeft_eq_add (x y k : Nat) (hx : x < 2 ^ k) : x ||| (y <<< k) = x + y * 2 ^ k := by
  rw [Nat.shiftLeft_eq, Nat.or_comm, Nat.mul_comm y, ← Nat.mul_add_lt_is_or hx y, Nat.add_comm]

theorem spec_word_eq_sum (b0 b1 b2 b3 b4 b5 : Nat) (h0 : b0 < 16) (h1 : b1 < 16)
    (h2 : b2 < 16) (h3 : b3 < 16) (h4 : b4 < 16) :
    spec_word [b0, b1, b2, b3, b4, b5] =
      b0 + b1 * 2 ^ 4 + b2 * 2 ^ 8 + b3 * 2 ^ 12 + b4 * 2 ^ 16 + b5 * 2 ^ 20 := by
  have e : spec_word [b0, b1, b2, b3, b4, b5] =
      (((((0 ||| b0 <<< 0) ||| b1 <<< 4) ||| b2 <<< 8) ||| b3 <<< 12) ||| b4 <<< 16)
        ||| b5 <<< 20 := rfl
  have s0 : 0 ||| b0 <<< 0 = b0 := by simp
  rw [e, s0, or_shiftLeft_eq_add b0 b1 4 (by omega),
    or_shiftLeft_eq_add _ b2 8 (by omega), or_shiftLeft_eq_add _ b3 12 (by omega),
    or_shiftLeft_eq_add _ b4 16 (by omega), or_shiftLeft_eq_add _ b5 20 (by omega)]

theorem dispatch_take (dispatch : List Nat) (hlen : dispatch.length = 32) :
    dispatch.take 32 = dispatch := by
  rw [← hlen]; exact List.take_length dispatch

/-! ## The claims on read_inst -/

/-- C15: for 32 dispatch bytes, `entry[x]` for an address `x` in 0..255 is the
largest index whose byte is `x` (the last assignment wins) and -1 when no byte
is `x`; so when the bytes are pairwise distinct `entry[byte[i]] = i` for every
`i`; and this is the entry table `read_inst` leaves. -/
theorem entry_last_wins (dispatch : List Nat) (hlen : dispatch.length = 32)
    (hb : ∀ d ∈ dispatch, d < 256) :
    ∃ entry, read_entry dispatch = some entry ∧ entry.length = 256 ∧
      (∀ x, x < 256 →
        (∀ i : Nat, dispatch[i]? = some x → (∀ j : Nat, i < j → dispatch[j]? ≠ some x) →
          entry[x]? = some (i : Int)) ∧
        (x ∉ dispatch → entry[x]? = some (-1))) ∧
      (dispatch.Nodup →
        ∀ i : Nat, i < 32 → ∃ x, dispatch[i]? = some x ∧ entry[x]? = some (i : Int)) ∧
      (∀ r0 r1 r2 r3 r4 r5 : List Nat, 256 ≤ r0.length → 256 ≤ r1.length → 256 ≤ r2.length →
        256 ≤ r3.length → 256 ≤ r4.length → 256 ≤ r5.length →
        ∃ G, read_inst dispatch [r0, r1, r2, r3, r4, r5] = some G ∧ G.entry = entry) := by
  have hnot : ¬ dispatch.length < 32 := by omega
  have hent : read_entry dispatch = some (dispatch_loop dispatch 0 (List.replicate I_MAX (-1))) := by
    simp only [read_entry, if_neg hnot, dispatch_take dispatch hlen]
  have hl : (List.replicate I_MAX (-1 : Int)).length = 256 := by
    rw [List.length_replicate]; rfl
  have hlast : ∀ x, x < 256 → ∀ i : Nat, dispatch[i]? = some x →
      (∀ j : Nat, i < j → dispatch[j]? ≠ some x) →
      (dispatch_loop dispatch 0 (List.replicate I_MAX (-1)))[x]? = some (i : Int) := by
    intro x hx i hi hj
    have h := dispatch_loop_last dispatch 0 (List.replicate I_MAX (-1)) x i (by omega) hi hj
    simpa using h
  refine ⟨_, hent, by rw [dispatch_loop_length, hl], ?_, ?_, ?_⟩
  · intro x hx
    refine ⟨hlast x hx, ?_⟩
    intro hmem
    have hI : x < I_MAX := hx
    rw [dispatch_loop_not_mem _ _ _ _ hmem, List.getElem?_replicate, if_pos hI]
  · intro hnd i hi
    have hil : i < dispatch.length := by omega
    refine ⟨dispatch[i], List.getElem?_eq_getElem hil, ?_⟩
    apply hlast _ (hb _ (List.getElem_mem hil)) i (List.getElem?_eq_getElem hil)
    intro j hij hj
    have hjl : j < dispatch.length := by
      by_contra hge
      rw [List.getElem?_eq_none (by omega)] at hj
      exact Option.noConfusion hj
    rw [List.getElem?_eq_getElem hjl] at hj
    have heq : dispatch[j] = dispatch[i] := Option.some.inj hj
    have := (List.Nodup.getElem_inj_iff hnd).mp heq
    omega
  · intro r0 r1 r2 r3 r4 r5 h0 h1 h2 h3 h4 h5
    obtain ⟨G, hG, hGe, _⟩ := read_inst_word dispatch r0 r1 r2 r3 r4 r5 (by omega) h0 h1 h2 h3
      h4 h5
    refine ⟨G, hG, ?_⟩
    rw [hent] at hGe
    exact (Option.some.inj hGe).symm

theorem read_inst_words (dispatch : List Nat) (roms : List (List Nat))
    (hd : 32 ≤ dispatch.length) (hlen : roms.length = 6) (hr : ∀ r ∈ roms, 256 ≤ r.length) :
    ∃ G, read_inst dispatch roms = some G ∧ read_entry dispatch = some G.entry ∧
      G.instruction.length = 256 ∧
      ∀ addr, addr < 256 →
        G.instruction.getD addr 0 = spec_word (roms.map fun r => r.getD addr 0) := by
  match roms, hlen, hr with
  | [r0, r1, r2, r3, r4, r5], _, hr =>
    exact read_inst_word dispatch r0 r1 r2 r3 r4 r5 hd (hr r0 (by simp)) (hr r1 (by simp))
      (hr r2 (by simp)) (hr r3 (by simp)) (hr r4 (by simp)) (hr r5 (by simp))

theorem spec_word_nibbles (bytes : List Nat) (hlen : bytes.length = 6)
    (hn : ∀ b ∈ bytes, b < 16) :
    spec_word bytes < 2 ^ 24 ∧ ∀ i, i < 6 → spec_word bytes / 2 ^ (4 * i) % 16 = bytes.getD i 0 := by
  match bytes, hlen, hn with
  | [b0, b1, b2, b3, b4, b5], _, hn =>
    have h0 := hn b0 (by simp)
    have h1 := hn b1 (by simp)
    have h2 := hn b2 (by simp)
    have h3 := hn b3 (by simp)
    have h4 := hn b4 (by simp)
    have h5 := hn b5 (by simp)
    rw [spec_word_eq_sum b0 b1 b2 b3 b4 b5 h0 h1 h2 h3 h4]
    refine ⟨by omega, ?_⟩
    intro i hi
    interval_cases i <;> simp <;> omega

/-- C15 at 32 dispatch bytes that are all 7: `entry[7]` is 31, the last index,
and `entry[8]`, an address no byte names, is -1. -/
theorem entry_last_wins_witness :
    ∃ entry, read_entry (List.replicate 32 7) = some entry ∧ entry[7]? = some 31 ∧
      entry[8]? = some (-1) :=
  let ⟨entry, h1, _, h3, _⟩ := entry_last_wins (List.replicate 32 7)
    (List.length_replicate _ _) (by decide)
  ⟨entry, h1,
    (h3 7 (by decide)).1 31 (by decide)
      (by
        intro j hj
        rw [List.getElem?_eq_none (by rw [List.length_replicate]; omega)]
        exact fun h => Option.noConfusion h),
    (h3 8 (by decide)).2 (by decide)⟩

/-- C16, as stated, fails for source bytes with a bit set in the upper nibble.
With byte `0x10` in the last ROM (and zeros elsewhere) the word at address 0
is `0x1000000`, which is not below `2 ^ 24`; with byte `0x10` in the first ROM
the word is `0x10`, whose nibble at bits 4..7 is 1 although the second ROM
holds 0 there. -/
theorem word_nibble_counterexample :
    (∃ G, read_inst (List.replicate 32 0)
          [List.replicate 256 0, List.replicate 256 0, List.replicate 256 0,
            List.replicate 256 0, List.replicate 256 0, List.replicate 256 0x10] = some G ∧
        G.instruction.getD 0 0 = 0x1000000 ∧ ¬ G.instruction.getD 0 0 < 2 ^ 24) ∧
      (∃ G, read_inst (List.replicate 32 0)
          [List.replicate 256 0x10, List.replicate 256 0, List.replicate 256 0,
            List.replicate 256 0, List.replicate 256 0, List.replicate 256 0] = some G ∧
        G.instruction.getD 0 0 = 0x10 ∧
        G.instruction.getD 0 0 / 2 ^ 4 % 16 ≠ (List.replicate 256 0).getD 0 0) := by
  constructor
  · obtain ⟨G, hG, _, _, hw⟩ := read_inst_word (List.replicate 32 0)
      (List.replicate 256 0) (List.replicate 256 0) (List.replicate 256 0)
      (List.replicate 256 0) (List.replicate 256 0) (List.replicate 256 0x10)
      (List.length_replicate _ _).ge (List.length_replicate _ _).ge
      (List.length_replicate _ _).ge (List.length_replicate _ _).ge
      (List.length_replicate _ _).ge (List.length_replicate _ _).ge
      (List.length_replicate _ _).ge
    have h0 : G.instruction.getD 0 0 = 0x1000000 := by
      rw [hw 0 (by decide)]; rfl
    exact ⟨G, hG, h0, by rw [h0]; decide⟩
  · obtain ⟨G, hG, _, _, hw⟩ := read_inst_word (List.replicate 32 0)
      (List.replicate 256 0x10) (List.replicate 256 0) (List.replicate 256 0)
      (List.replicate 256 0) (List.replicate 256 0) (List.replicate 256 0)
      (List.length_replicate _ _).ge (List.length_replicate _ _).ge
      (List.length_replicate _ _).ge (List.length_replicate _ _).ge
      (List.length_replicate _ _).ge (List.length_replicate _ _).ge
      (List.length_replicate _ _).ge
    have h0 : G.instruction.getD 0 0 = 0x10 := by
      rw [hw 0 (by decide)]; rfl
    exact ⟨G, hG, h0, by rw [h0]; decide⟩

/-- C16, amended: for every address and six source bytes at that address that
are each below 16 (upper nibble clear), the word `read_inst` assembles is
below `2 ^ 24` and its nibble at bits `4 * i` .. `4 * i + 3` is the byte of
source `i`. -/
theorem word_nibbles (dispatch : List Nat) (roms : List (List Nat)) (addr : Nat)
    (hd : 32 ≤ dispatch.length) (hlen : roms.length = 6) (hr : ∀ r ∈ roms, 256 ≤ r.length)
    (ha : addr < 256) (hn : ∀ r ∈ roms, r.getD addr 0 < 16) :
    ∃ G, read_inst dispatch roms = some G ∧ G.instruction.getD addr 0 < 2 ^ 24 ∧
      ∀ i, i < 6 →
        G.instruction.getD addr 0 / 2 ^ (4 * i) % 16 = (roms.getD i []).getD addr 0 := by
  obtain ⟨G, hG, _, _, hw⟩ := read_inst_words dispatch roms hd hlen hr
  have hb : ∀ b ∈ roms.map (fun r => r.getD addr 0), b < 16 := by
    intro b hmem
    obtain ⟨r, hrm, rfl⟩ := List.mem_map.mp hmem
    exact hn r hrm
  obtain ⟨hlt, hnib⟩ := spec_word_nibbles (roms.map fun r => r.getD addr 0) (by simpa using hlen) hb
  refine ⟨G, hG, by rw [hw addr ha]; exact hlt, ?_⟩
  intro i hi
  rw [hw addr ha, hnib i hi]
  have hil : i < roms.length := by omega
  simp [List.getD_eq_getElem?_getD, List.getElem?_map, List.getElem?_eq_getElem hil]

/-- C16, amended, at six ROMs that hold the nibbles 1, 2, 3, 4, 5, 6 at every
address: the word is `0x654321`. -/
theorem word_nibbles_witness :
    ∃ G, read_inst (List.replicate 32 0)
        [List.replicate 256 1, List.replicate 256 2, List.replicate 256 3,
          List.replicate 256 4, List.replicate 256 5, List.replicate 256 6] = some G ∧
      G.instruction.getD 0 0 < 2 ^ 24 ∧ G.instruction.getD 0 0 / 2 ^ (4 * 2) % 16 = 3 :=
  let ⟨G, h1, h2, h3⟩ := word_nibbles (List.replicate 32 0)
    [List.replicate 256 1, List.replicate 256 2, List.replicate 256 3,
      List.replicate 256 4, List.replicate 256 5, List.replicate 256 6] 0
    (List.length_replicate _ _).ge rfl
    (by
      intro r hr
      simp only [List.mem_cons, List.mem_singleton, List.not_mem_nil, or_false] at hr
      rcases hr with h | h | h | h | h | h <;> rw [h, List.length_replicate])
    (by decide)
    (by
      intro r hr
      simp only [List.mem_cons, List.mem_singleton, List.not_mem_nil, or_false] at hr
      rcases hr with h | h | h | h | h | h <;> rw [h] <;> decide)
  ⟨G, h1, h2, (h3 2 (by decide)).trans rfl⟩

/-- C17: for six microcode ROMs (of 256 bytes or more each) and every address
in 0..255, the word `read_inst` stores in `instruction[addr]` is the bitwise
OR, over `i` in 0..5, of byte `addr` of ROM `i` shifted left by `4 * i`,
starting from 0. -/
theorem instruction_word (dispatch : List Nat) (roms : List (List Nat))
    (hd : 32 ≤ dispatch.length) (hlen : roms.length = 6) (hr : ∀ r ∈ roms, 256 ≤ r.length) :
    ∃ G, read_inst dispatch roms = some G ∧ G.instruction.length = 256 ∧
      ∀ addr, addr < 256 →
        G.instruction[addr]? = some (spec_word (roms.map fun r => r.getD addr 0)) ∧
        spec_word (roms.map fun r => r.getD addr 0) =
          (((((0 ||| (roms.getD 0 []).getD addr 0 <<< (4 * 0))
            ||| (roms.getD 1 []).getD addr 0 <<< (4 * 1))
            ||| (roms.getD 2 []).getD addr 0 <<< (4 * 2))
            ||| (roms.getD 3 []).getD addr 0 <<< (4 * 3))
            ||| (roms.getD 4 []).getD addr 0 <<< (4 * 4))
            ||| (roms.getD 5 []).getD addr 0 <<< (4 * 5) := by
  obtain ⟨G, hG, _, hl, hw⟩ := read_inst_words dispatch roms hd hlen hr
  refine ⟨G, hG, hl, ?_⟩
  intro addr ha
  constructor
  · have hal : addr < G.instruction.length := by omega
    have h := hw addr ha
    rw [List.getD_eq_getElem?_getD, List.getElem?_eq_getElem hal] at h
    rw [List.getElem?_eq_getElem hal]
    exact congrArg some (by simpa using h)
  · match roms, hlen with
    | [r0, r1, r2, r3, r4, r5], _ => rfl

/-- C17 at six ROMs holding `0x0a`, `0x0b`, `0x0c`, `0x0d`, `0x0e`, `0x0f` at
every address: every word is `0xfedcba`. -/
theorem instruction_word_witness :
    ∃ G, read_inst (List.replicate 32 0)
        [List.replicate 256 0x0a, List.replicate 256 0x0b, List.replicate 256 0x0c,
          List.replicate 256 0x0d, List.replicate 256 0x0e, List.replicate 256 0x0f] = some G ∧
      G.instruction[255]? = some 0xfedcba :=
  let ⟨G, h1, _, h3⟩ := instruction_word (List.replicate 32 0)
    [List.replicate 256 0x0a, List.replicate 256 0x0b, List.replicate 256 0x0c,
      List.replicate 256 0x0d, List.replicate 256 0x0e, List.replicate 256 0x0f]
    (List.length_replicate _ _).ge rfl
    (by
      intro r hr
      simp only [List.mem_cons, List.mem_singleton, List.not_mem_nil, or_false] at hr
      rcases hr with h | h | h | h | h | h <;> rw [h, List.length_replicate])
  ⟨G, h1, (h3 255 (by decide)).1.trans (by decide)⟩

end Mathdis
